import Mathlib

/-!
Verification of the DBSCAN clustering engine in `src/project.cpp`.

The C++ program is shallowly embedded: coordinates live in an arbitrary
linear ordered commutative ring (exact arithmetic in place of `double`),
the global point array becomes a `List (Point α)`, the atomic fields
`clusterId` / `visited` become plain fields mutated by explicit state
passing, and the (concurrent) per-point workers are modelled by their
canonical sequential linearization, with a dedicated fine-grained
interleaving model for the label-claim race in `expandCluster`
(lines 80-83).
-/

namespace DBSCAN

/- Coordinates are modelled over an arbitrary linear ordered commutative
ring (an exact idealization of the C++ `double`; ℚ and ℤ are instances),
with decidable equality so that the sentinel comparison `x == 0` of the
code is expressible. -/
variable {α : Type _} [LinearOrderedCommRing α] [DecidableEq α]

set_option linter.unusedSectionVars false

/-- MAX_POINTS: size of the global point array (project.cpp line 11). -/
def MAX_POINTS : Nat := 10000

/-- MAX_NEIGHBORS: capacity of a neighbor buffer (project.cpp line 12). -/
def MAX_NEIGHBORS : Nat := 10000

/-- Bound of the counting semaphore `thread_limiter` (project.cpp line 43). -/
def THREAD_LIMIT : Nat := 16

/-- A 2D point with its mutable clustering state (project.cpp lines 19-26).
`clusterId = 0` means noise / unlabeled; `visited` is the thread-safe
visited flag. -/
structure Point (α : Type _) where
  x : α
  y : α
  clusterId : Nat := 0
  visited : Bool := false
deriving DecidableEq

instance : Inhabited (Point α) := ⟨{ x := 0, y := 0 }⟩

/-- Squared Euclidean distance (project.cpp lines 46-48). -/
def squaredDistance (a b : Point α) : α :=
  (a.x - b.x) * (a.x - b.x) + (a.y - b.y) * (a.y - b.y)

/-- The sentinel test `points[i].x == 0 && points[i].y == 0` used to skip
"uninitialized" slots (project.cpp line 54). -/

def isOrigin (p : Point α) : Bool := decide (p.x = 0 ∧ p.y = 0)

/-- Loop of `findNeighbors` (project.cpp lines 53-58): scan the array from
index `i` with remaining output capacity `b` (`b = maxNeighbors - count`);
the loop exits as soon as the capacity is exhausted. -/

def findNeighborsGo (p : Point α) (epsilonSquared : α) :
    Nat → Nat → List (Point α) → List Nat
  | _, _, [] => []
  | _, 0, _ :: _ => []
  | i, b + 1, q :: rest =>
    if isOrigin q then findNeighborsGo p epsilonSquared (i + 1) (b + 1) rest
    else if squaredDistance p q ≤ epsilonSquared then
      i :: findNeighborsGo p epsilonSquared (i + 1) b rest
    else findNeighborsGo p epsilonSquared (i + 1) (b + 1) rest

/-- Function `findNeighbors` (project.cpp lines 51-60): linear scan collecting the
indices of non-origin points within `epsilonSquared`, stopping once
`maxNeighbors` indices have been stored. Returns the list of stored
indices (the C++ function fills `neighbors[0..count-1]` and returns
`count`; here the list is that buffer prefix). -/

def findNeighbors (pts : List (Point α)) (p : Point α) (epsilonSquared : α)
    (maxNeighbors : Nat) : List Nat :=
  findNeighborsGo p epsilonSquared 0 maxNeighbors pts

/-- Does `q` pass the scan test of project.cpp lines 54-55: not the origin
sentinel, and within `epsilonSquared` of `p`? -/

def hits (p : Point α) (epsilonSquared : α) (q : Point α) : Bool :=
  !(isOrigin q) && decide (squaredDistance p q ≤ epsilonSquared)

/-- The uncapped scan: indices (offset by `i`) of all points passing the
origin filter and the distance test. This is the "true result set" of a
range query, before the capacity cap is applied. -/

def scanIdx (p : Point α) (epsilonSquared : α) : Nat → List (Point α) → List Nat
  | _, [] => []
  | i, q :: rest =>
    if hits p epsilonSquared q then i :: scanIdx p epsilonSquared (i + 1) rest
    else scanIdx p epsilonSquared (i + 1) rest

/-- The full (uncapped) neighbor set of `p` in `pts`. -/
def fullScan (pts : List (Point α)) (p : Point α) (epsilonSquared : α) : List Nat :=
  scanIdx p epsilonSquared 0 pts

inductive ClaimAct where
  | read1 : ClaimAct
  | write1 : ClaimAct
  | read2 : ClaimAct
  | write2 : ClaimAct
deriving Repr, DecidableEq

/-- Shared label plus each worker's private register (the value its read
returned) and a flag recording whether its write was performed; `writes`
logs every write to the label as `(old, new)`, oldest first. -/

structure ClaimState where
  label : Nat
  r1 : Option Nat := none
  r2 : Option Nat := none
  wrote1 : Bool := false
  wrote2 : Bool := false
  writes : List (Nat × Nat) := []
deriving Repr, DecidableEq

/-- One atomic action of the two-worker claim race: worker 1 claims for
cluster id `c1`, worker 2 for `c2`. A worker's write is performed exactly
when the value its own read returned was 0 (the `p.clusterId == 0` test of
line 81). -/

def claimStep (c1 c2 : Nat) (s : ClaimState) : ClaimAct → ClaimState
  | .read1 => { s with r1 := some s.label }
  | .write1 =>
    if s.r1 = some 0 then
      { s with label := c1, wrote1 := true, writes := s.writes ++ [(s.label, c1)] }
    else s
  | .read2 => { s with r2 := some s.label }
  | .write2 =>
    if s.r2 = some 0 then
      { s with label := c2, wrote2 := true, writes := s.writes ++ [(s.label, c2)] }
    else s

/-- Execute a schedule (an interleaving of the two workers' actions). -/
def claimRun (c1 c2 : Nat) (acts : List ClaimAct) (s : ClaimState) : ClaimState :=
  acts.foldl (claimStep c1 c2) s

/-- The point before either worker reaches it: label 0 (Unlabeled/Noise). -/
def claimInit : ClaimState := { label := 0 }

/-- The racy interleaving: both workers read before either writes. It
respects both workers' program orders (read1 before write1, read2 before
write2). -/

def racySchedule : List ClaimAct := [.read1, .read2, .write1, .write2]

/-!
Section: Thread creation in `dbscan` (project.cpp lines 109-126)

`dbscan` allocates `MAX_POINTS` thread slots and spawns one `std::thread`
per initialized (non-origin) point; the counting semaphore
`thread_limiter` (bound `THREAD_LIMIT = 16`) is acquired inside
`processPoint`, i.e. it gates execution only, not thread creation. -/

/-- Number of `std::thread` objects spawned by the loop at project.cpp
lines 114-118: one per non-origin slot of the point array. -/

def threadsCreated (pts : List (Point α)) : Nat :=
  (pts.filter (fun p => !(isOrigin p))).length

/-!
Section: The shared mutable state

`St` models the global point array together with the shared atomic
cluster-id counter (`nextClusterId`, project.cpp line 110). In addition it
keeps `log`, a ghost trace of every write to a point's `clusterId`
performed by `expandCluster`, recorded as `(index, oldLabel, newLabel)`,
newest first; the log has no influence on control flow. -/

structure St (α : Type _) where
  pts : List (Point α)
  nextClusterId : Nat
  log : List (Nat × Nat × Nat)
deriving DecidableEq

/-- Read of `points[i]` (out-of-range reads return the default point; all code
paths index within bounds). -/

def getPt (st : St α) (i : Nat) : Point α := st.pts.getD i default

/-- Read of `points[i].clusterId`. -/
def labelOf (st : St α) (i : Nat) : Nat := (getPt st i).clusterId

/-- Read of `points[i].visited`. -/
def visitedOf (st : St α) (i : Nat) : Bool := (getPt st i).visited

/-- Write `points[i].visited = true` (the effect of `visited.exchange(true)`). -/
def setVisited (st : St α) (i : Nat) : St α :=
  { st with pts := st.pts.set i { getPt st i with visited := true } }

/-- Write `points[i].clusterId = c` (the label writes of project.cpp lines 64
and 82), with the ghost log extended by the observed transition. -/

def writeLabel (st : St α) (i c : Nat) : St α :=
  { st with pts := st.pts.set i { getPt st i with clusterId := c },
            log := (i, labelOf st i, c) :: st.log }

def coordsOf (p : Point α) : α × α := (p.x, p.y)

/-- Number of points whose `visited` flag is still false. -/
def countUnvisited : List (Point α) → Nat
  | [] => 0
  | p :: rest => (if p.visited then 0 else 1) + countUnvisited rest

def unvisitedCount (st : St α) : Nat := countUnvisited st.pts

def expandFrom (epsilonSquared : α) (minPts c : Nat) : Nat → List Nat → St α → Option (St α)
  | _, [], st => some st
  | 0, _ :: _, _ => none
  | fuel + 1, ni :: rest, st =>
    (if visitedOf st ni = true then some st
     else
       let st1 := setVisited st ni
       let nn := findNeighbors st1.pts (getPt st1 ni) epsilonSquared MAX_NEIGHBORS
       if minPts ≤ nn.length then
         expandFrom epsilonSquared minPts c fuel nn (writeLabel st1 ni c)
       else some st1).bind
      (fun st2 =>
        expandFrom epsilonSquared minPts c fuel rest
          (if labelOf st2 ni = 0 then writeLabel st2 ni c else st2))

/-- Function `expandCluster(pointIndex, neighbors, neighborCount, clusterId,
epsilonSquared, minPts)` (project.cpp lines 63-85): assign the cluster id
to the point (line 64) and run the neighbor loop. -/

def expandCluster (pointIndex : Nat) (neighbors : List Nat) (clusterId : Nat)
    (epsilonSquared : α) (minPts fuel : Nat) (st : St α) : Option (St α) :=
  expandFrom epsilonSquared minPts clusterId fuel neighbors
    (writeLabel st pointIndex clusterId)

/-- Function `processPoint` (project.cpp lines 88-106). The semaphore
acquire/release (lines 89 and 105) only throttles execution and has no
effect on the per-point state. -/

def processPoint (index : Nat) (epsilonSquared : α) (minPts fuel : Nat)
    (st : St α) : Option (St α) :=
  if visitedOf st index = true then some st
  else
    let st1 := setVisited st index
    let neighbors := findNeighbors st1.pts (getPt st1 index) epsilonSquared MAX_NEIGHBORS
    if minPts ≤ neighbors.length then
      expandCluster index neighbors (st1.nextClusterId + 1) epsilonSquared minPts fuel
        { st1 with nextClusterId := st1.nextClusterId + 1 }
    else some st1

/-- The index sequence `s, s+1, ..., s+n-1`. -/
def idxFrom : Nat → Nat → List Nat
  | _, 0 => []
  | s, n + 1 => s :: idxFrom (s + 1) n

/-- The spawn loop of `dbscan` (project.cpp lines 114-118) in its canonical
sequential linearization: each initialized (non-origin) point is processed
in index order; origin slots are skipped. -/

def dbscanLoop (epsilonSquared : α) (minPts fuel : Nat) : List Nat → St α → Option (St α)
  | [], st => some st
  | i :: rest, st =>
    if isOrigin (getPt st i) = true then dbscanLoop epsilonSquared minPts fuel rest st
    else
      (processPoint i epsilonSquared minPts fuel st).bind
        (dbscanLoop epsilonSquared minPts fuel rest)

/-- Fuel budget: enough for every run over a point array of this size
(proved below). -/

def dbscanFuel (st : St α) : Nat := (st.pts.length + 1) * (st.pts.length + 2)

/-- Function `dbscan(epsilon, minPts)` (project.cpp lines 109-126): squares epsilon
and processes every initialized point. Note there is no validation of
`epsilon` or `minPts` whatsoever. -/

def dbscan (epsilon : α) (minPts : Nat) (st : St α) : Option (St α) :=
  dbscanLoop (epsilon * epsilon) minPts (dbscanFuel st) (idxFrom 0 st.pts.length) st

/-!
Section: Loading and output (main, project.cpp lines 127-187)
-/

/-- The load loop (lines 135-141): the first `MAX_POINTS` coordinate pairs
are stored in order; labels start at 0, visited at false. Trailing unused
slots of the C++ array hold the default point `(0,0)`, which every loop of
the program skips exactly as it skips a loaded origin point, so they are
dropped from the model. -/

def loadPoints (input : List (α × α)) : List (Point α) :=
  (input.take MAX_POINTS).map (fun c => { x := c.1, y := c.2 })

def initSt (input : List (α × α)) : St α :=
  { pts := loadPoints input, nextClusterId := 0, log := [] }

/-- The ghost trace of label writes produced by a full run. -/
def runLog (input : List (α × α)) (epsilon : α) (minPts : Nat) :
    List (Nat × Nat × Nat) :=
  ((dbscan epsilon minPts (initSt input)).map (fun st => st.log)).getD []

/-- The output loop (lines 169-174): one `(x, y, clusterId)` triple per
non-origin slot, in array order. -/

def outputTriples (pts : List (Point α)) : List (α × α × Nat) :=
  pts.filterMap (fun p => if isOrigin p = true then none else some (p.x, p.y, p.clusterId))

/-- End-to-end model of `main` (with the epsilon/minPts configuration as
parameters): load, reject an empty load (lines 144-147), cluster, emit the
output sequence. -/

def mainOutput (input : List (α × α)) (epsilon : α) (minPts : Nat) :
    Option (List (α × α × Nat)) :=
  if loadPoints input = [] then none
  else (dbscan epsilon minPts (initSt input)).map (fun st => outputTriples st.pts)

/-!
Section: Frame properties of cluster expansion
-/

/-- What one `expandCluster` body (with cluster id `c`) may do to the
state: coordinates are untouched, the id counter is untouched, `visited`
flags only go from false to true, and any label it changes is set to `c`. -/

def Evolves (c : Nat) (st st' : St α) : Prop :=
  st'.pts.map coordsOf = st.pts.map coordsOf ∧
  st'.nextClusterId = st.nextClusterId ∧
  (∀ i, visitedOf st i = true → visitedOf st' i = true) ∧
  (∀ i, labelOf st' i = labelOf st i ∨ labelOf st' i = c)

def Inv (st : St α) : Prop := ∀ i, labelOf st i ≠ 0 → visitedOf st i = true

/-- Every logged label write is a transition from 0 (Unlabeled/Noise) to a
positive cluster id. -/

def GoodLog (st : St α) : Prop := ∀ e ∈ st.log, e.2.1 = 0 ∧ 1 ≤ e.2.2

def Keeps (st st' : St α) : Prop :=
  st'.pts.map coordsOf = st.pts.map coordsOf ∧
  (∀ i, visitedOf st i = true → visitedOf st' i = true)

/-- The origin-sentinel test on a bare coordinate pair. -/
def originC (c : α × α) : Bool := decide (c.1 = 0 ∧ c.2 = 0)

/-- All points of the list have pairwise distinct coordinates. -/
def DistinctCoords (l : List (Point α)) : Prop :=
  ∀ j k, j < l.length → k < l.length → j ≠ k →
    coordsOf (l.getD j default) ≠ coordsOf (l.getD k default)

def nvCount (l : List (Point α)) : Nat → Nat
  | 0 => 0
  | k + 1 => nvCount l k + (if isOrigin (l.getD k default) = true then 0 else 1)

def Phase1Inv (pts0 : List (Point α)) (k : Nat) (st : St α) : Prop :=
  st.pts.length = pts0.length ∧
  st.nextClusterId = nvCount pts0 k ∧
  (∀ j, coordsOf (getPt st j) = coordsOf (pts0.getD j default)) ∧
  (∀ j, j < k → isOrigin (pts0.getD j default) = false →
      visitedOf st j = true ∧ labelOf st j = nvCount pts0 j + 1) ∧
  (∀ j, k ≤ j ∨ isOrigin (pts0.getD j default) = true →
      visitedOf st j = false ∧ labelOf st j = 0)

def Phase2Inv (pts0 : List (Point α)) (st : St α) : Prop :=
  st.pts.length = pts0.length ∧
  (∀ j, coordsOf (getPt st j) = coordsOf (pts0.getD j default)) ∧
  (∀ j, labelOf st j = 0)

/-! ### Theorems -/

theorem findNeighborsGo_eq_take (p : Point α) (eps : α) :
    ∀ (l : List (Point α)) (i b : Nat),
      findNeighborsGo p eps i b l = (scanIdx p eps i l).take b := by
  intro l
  induction l with
  | nil => intro i b; cases b <;> simp [findNeighborsGo, scanIdx]
  | cons q rest ih =>
    intro i b
    cases b with
    | zero => simp [findNeighborsGo]
    | succ b =>
      by_cases h1 : isOrigin q
      · have hh : hits p eps q = false := by simp [hits, h1]
        simp [findNeighborsGo, scanIdx, h1, hh, ih]
      · by_cases h2 : squaredDistance p q ≤ eps
        · have hh : hits p eps q = true := by simp [hits, h1, h2]
          simp [findNeighborsGo, scanIdx, h1, h2, hh, ih]
        · have hh : hits p eps q = false := by simp [hits, h1, h2]
          simp [findNeighborsGo, scanIdx, h1, h2, hh, ih]

/-- Characterization of `findNeighbors`: it is exactly the first
`maxNeighbors` entries of the uncapped scan — the cap silently truncates. -/

theorem findNeighbors_eq_take (pts : List (Point α)) (p : Point α) (eps : α)
    (maxNeighbors : Nat) :
    findNeighbors pts p eps maxNeighbors = (fullScan pts p eps).take maxNeighbors :=
  findNeighborsGo_eq_take p eps pts 0 maxNeighbors

theorem mem_scanIdx (p : Point α) (eps : α) :
    ∀ (l : List (Point α)) (i j : Nat),
      j ∈ scanIdx p eps i l ↔
        ∃ k, k < l.length ∧ j = i + k ∧ hits p eps (l.getD k default) = true := by
  intro l
  induction l with
  | nil => intro i j; simp [scanIdx]
  | cons q rest ih =>
    intro i j
    constructor
    · intro hj
      by_cases h : hits p eps q
      · rw [scanIdx, if_pos h] at hj
        rcases List.mem_cons.mp hj with h0 | h1
        · exact ⟨0, by simp, by omega, by simpa [h0] using h⟩
        · rcases (ih (i + 1) j).mp h1 with ⟨k, hk, hjk, hhit⟩
          exact ⟨k + 1, by simpa using Nat.succ_lt_succ hk, by omega, by simpa using hhit⟩
      · rw [scanIdx, if_neg h] at hj
        rcases (ih (i + 1) j).mp hj with ⟨k, hk, hjk, hhit⟩
        exact ⟨k + 1, by simpa using Nat.succ_lt_succ hk, by omega, by simpa using hhit⟩
    · rintro ⟨k, hk, hjk, hhit⟩
      cases k with
      | zero =>
        simp only [List.getD_cons_zero] at hhit
        rw [scanIdx, if_pos hhit]
        simp [hjk]
      | succ k =>
        have hmem : j ∈ scanIdx p eps (i + 1) rest :=
          (ih (i + 1) j).mpr ⟨k, by simpa using Nat.lt_of_succ_lt_succ hk, by omega,
            by simpa using hhit⟩
        by_cases h : hits p eps q
        · rw [scanIdx, if_pos h]; exact List.mem_cons_of_mem _ hmem
        · rw [scanIdx, if_neg h]; exact hmem

theorem scanIdx_length_le (p : Point α) (eps : α) :
    ∀ (l : List (Point α)) (i : Nat), (scanIdx p eps i l).length ≤ l.length := by
  intro l
  induction l with
  | nil => intro i; simp [scanIdx]
  | cons q rest ih =>
    intro i
    by_cases h : hits p eps q
    · rw [scanIdx, if_pos h]
      simpa using Nat.succ_le_succ (ih (i + 1))
    · rw [scanIdx, if_neg h]
      exact Nat.le_succ_of_le (ih (i + 1))

theorem fullScan_length_le (pts : List (Point α)) (p : Point α) (eps : α) :
    (fullScan pts p eps).length ≤ pts.length :=
  scanIdx_length_le p eps pts 0

theorem findNeighbors_length_le (pts : List (Point α)) (p : Point α) (eps : α)
    (maxNeighbors : Nat) :
    (findNeighbors pts p eps maxNeighbors).length ≤ maxNeighbors := by
  rw [findNeighbors_eq_take]
  simp

theorem findNeighbors_length_le_pts (pts : List (Point α)) (p : Point α) (eps : α)
    (maxNeighbors : Nat) :
    (findNeighbors pts p eps maxNeighbors).length ≤ pts.length := by
  rw [findNeighbors_eq_take]
  calc ((fullScan pts p eps).take maxNeighbors).length
      ≤ (fullScan pts p eps).length := by simp
    _ ≤ pts.length := fullScan_length_le pts p eps

theorem mem_findNeighbors_lt (pts : List (Point α)) (p : Point α) (eps : α)
    (maxNeighbors : Nat) {j : Nat} (hj : j ∈ findNeighbors pts p eps maxNeighbors) :
    j < pts.length := by
  rw [findNeighbors_eq_take] at hj
  have hj' : j ∈ fullScan pts p eps := List.take_subset _ _ hj
  rcases (mem_scanIdx p eps pts 0 j).mp hj' with ⟨k, hk, hjk, -⟩
  omega

theorem mem_findNeighbors_uncapped (pts : List (Point α)) (p : Point α) (eps : α)
    (maxNeighbors : Nat) (hcap : pts.length ≤ maxNeighbors) (j : Nat) :
    j ∈ findNeighbors pts p eps maxNeighbors ↔
      j < pts.length ∧ hits p eps (pts.getD j default) = true := by
  rw [findNeighbors_eq_take,
    List.take_of_length_le (le_trans (fullScan_length_le pts p eps) hcap)]
  simp only [fullScan]
  rw [mem_scanIdx]
  constructor
  · rintro ⟨k, hk, hjk, hhit⟩
    refine ⟨by omega, ?_⟩
    have : j = k := by omega
    simpa [this] using hhit
  · rintro ⟨hj, hhit⟩
    exact ⟨j, hj, by omega, hhit⟩

theorem squaredDistance_self (a : Point α) : squaredDistance a a = 0 := by
  simp [squaredDistance]

theorem squaredDistance_nonneg (a b : Point α) : 0 ≤ squaredDistance a b :=
  add_nonneg (mul_self_nonneg _) (mul_self_nonneg _)

theorem squaredDistance_le_zero_iff (a b : Point α) :
    squaredDistance a b ≤ 0 ↔ a.x = b.x ∧ a.y = b.y := by
  constructor
  · intro h
    have h1 : 0 ≤ (a.x - b.x) * (a.x - b.x) := mul_self_nonneg _
    have h2 : 0 ≤ (a.y - b.y) * (a.y - b.y) := mul_self_nonneg _
    have hx : (a.x - b.x) * (a.x - b.x) = 0 := by
      have := h
      simp only [squaredDistance] at this
      nlinarith
    have hy : (a.y - b.y) * (a.y - b.y) = 0 := by
      have := h
      simp only [squaredDistance] at this
      nlinarith
    constructor
    · have := mul_self_eq_zero.mp hx
      linarith [sub_eq_zero.mp this]
    · have := mul_self_eq_zero.mp hy
      linarith [sub_eq_zero.mp this]
  · rintro ⟨hx, hy⟩
    simp [squaredDistance, hx, hy]

theorem scanIdx_eq_nil (p : Point α) (eps : α) :
    ∀ (l : List (Point α)) (i : Nat),
      (∀ k, k < l.length → hits p eps (l.getD k default) = false) →
      scanIdx p eps i l = [] := by
  intro l
  induction l with
  | nil => intro i _; simp [scanIdx]
  | cons q rest ih =>
    intro i h
    have h0 : hits p eps q = false := by simpa using h 0 (by simp)
    rw [scanIdx, if_neg (by simp [h0])]
    exact ih (i + 1) fun k hk => by simpa using h (k + 1) (by simpa using Nat.succ_lt_succ hk)

theorem scanIdx_eq_singleton (p : Point α) (eps : α) :
    ∀ (l : List (Point α)) (i t : Nat), i ≤ t → t < i + l.length →
      (∀ k, k < l.length → (hits p eps (l.getD k default) = true ↔ i + k = t)) →
      scanIdx p eps i l = [t] := by
  intro l
  induction l with
  | nil => intro i t h1 h2 _; simp at h2; omega
  | cons q rest ih =>
    intro i t h1 h2 h
    by_cases hit : i = t
    · subst hit
      have h0 : hits p eps q = true := by
        have := (h 0 (by simp)).mpr (by simp)
        simpa using this
      rw [scanIdx, if_pos h0]
      have hnil : scanIdx p eps (i + 1) rest = [] := by
        apply scanIdx_eq_nil
        intro k hk
        by_cases hb : hits p eps (rest.getD k default) = true
        · have := (h (k + 1) (by simpa using Nat.succ_lt_succ hk)).mp (by simpa using hb)
          omega
        · simpa using hb
      rw [hnil]
    · have h0 : hits p eps q = false := by
        by_cases hb : hits p eps q = true
        · have := (h 0 (by simp)).mp (by simpa using hb)
          omega
        · simpa using hb
      rw [scanIdx, if_neg (by simp [h0])]
      refine ih (i + 1) t (by omega) (by simp at h2 ⊢; omega) ?_
      intro k hk
      have := h (k + 1) (by simpa using Nat.succ_lt_succ hk)
      simpa [Nat.add_assoc, Nat.add_comm 1 k] using this

/-!
Section: Interleaving model of the label claim (project.cpp lines 80-83)

The C++ code claims a point for a cluster with

  `if (p.clusterId == 0) { p.clusterId = clusterId; }`

on an `std::atomic<int>`: each of the read (`p.clusterId == 0`) and the
write (`p.clusterId = clusterId`) is individually atomic, but the pair is
not one indivisible compare-and-swap. Two workers expanding different
clusters that both reach the same point `q` therefore execute the four
atomic actions {read1, write1, read2, write2} in some interleaving that
respects each worker's program order (its read precedes its write). The
model below runs any such action sequence over the shared `label`, records
every label write as an `(old, new)` pair, and flags which workers' writes
were performed. -/

/-! #### List helper lemmas -/

theorem set_of_length_le {α : Type _} :
    ∀ (l : List α) (i : Nat) (q : α), l.length ≤ i → l.set i q = l := by
  intro l
  induction l with
  | nil => intro i q _; simp
  | cons a t ih =>
    intro i q h
    cases i with
    | zero => simp at h
    | succ i => simpa using ih i q (by simpa using h)

theorem getD_set_self {α : Type _} :
    ∀ (l : List α) (i : Nat) (q d : α), i < l.length → (l.set i q).getD i d = q := by
  intro l
  induction l with
  | nil => intro i q d h; simp at h
  | cons a t ih =>
    intro i q d h
    cases i with
    | zero => simp
    | succ i => simpa using ih i q d (by simpa using h)

theorem getD_set_ne {α : Type _} :
    ∀ (l : List α) (i j : Nat) (q d : α), i ≠ j → (l.set i q).getD j d = l.getD j d := by
  intro l
  induction l with
  | nil => intro i j q d _; simp
  | cons a t ih =>
    intro i j q d hij
    cases i with
    | zero =>
      cases j with
      | zero => omega
      | succ j => simp
    | succ i =>
      cases j with
      | zero => simp
      | succ j => simpa using ih i j q d (by omega)

theorem map_coordsOf_set :
    ∀ (l : List (Point α)) (i : Nat) (f : Point α → Point α),
      (∀ p, coordsOf (f p) = coordsOf p) →
      (l.set i (f (l.getD i default))).map coordsOf = l.map coordsOf := by
  intro l
  induction l with
  | nil => intro i f _; simp
  | cons a t ih =>
    intro i f hf
    cases i with
    | zero => simpa using hf a
    | succ i => simpa using ih i f hf

theorem countUnvisited_le : ∀ l : List (Point α), countUnvisited l ≤ l.length := by
  intro l
  induction l with
  | nil => simp [countUnvisited]
  | cons a t ih =>
    by_cases h : a.visited <;> simp [countUnvisited, h] <;> omega

theorem countUnvisited_mono :
    ∀ (l l' : List (Point α)), l'.length = l.length →
      (∀ k, k < l.length →
        ((l.getD k default).visited = true → (l'.getD k default).visited = true)) →
      countUnvisited l' ≤ countUnvisited l := by
  intro l
  induction l with
  | nil =>
    intro l' hlen _
    cases l' with
    | nil => exact le_refl _
    | cons b t' => simp at hlen
  | cons a t ih =>
    intro l' hlen h
    cases l' with
    | nil => simp at hlen
    | cons b t' =>
      have hhead : a.visited = true → b.visited = true := by simpa using h 0 (by simp)
      have htail : countUnvisited t' ≤ countUnvisited t := by
        refine ih t' (by simpa using hlen) ?_
        intro k hk
        simpa using h (k + 1) (by simpa using Nat.succ_lt_succ hk)
      by_cases ha : a.visited
      · have hb := hhead ha
        simp [countUnvisited, ha, hb]
        exact htail
      · by_cases hb : b.visited <;> simp [countUnvisited, ha, hb] <;> omega

theorem countUnvisited_setTrue :
    ∀ (l : List (Point α)) (i : Nat), i < l.length → (l.getD i default).visited = false →
      countUnvisited (l.set i { l.getD i default with visited := true }) + 1 =
        countUnvisited l := by
  intro l
  induction l with
  | nil => intro i h _; simp at h
  | cons a t ih =>
    intro i hi hv
    cases i with
    | zero =>
      simp only [List.getD_cons_zero] at hv
      simp [countUnvisited, hv]
      omega
    | succ i =>
      simp only [List.getD_cons_succ] at hv
      have ih' := ih i (by simpa using hi) hv
      show (if a.visited = true then 0 else 1) +
          countUnvisited (t.set i { t.getD i default with visited := true }) + 1 =
        (if a.visited = true then 0 else 1) + countUnvisited t
      omega

theorem countUnvisited_setLabel :
    ∀ (l : List (Point α)) (i c : Nat),
      countUnvisited (l.set i { l.getD i default with clusterId := c }) =
        countUnvisited l := by
  intro l
  induction l with
  | nil => intro i c; simp
  | cons a t ih =>
    intro i c
    cases i with
    | zero => simp [countUnvisited]
    | succ i =>
      have ih' := ih i c
      show (if a.visited = true then 0 else 1) +
          countUnvisited (t.set i { t.getD i default with clusterId := c }) =
        (if a.visited = true then 0 else 1) + countUnvisited t
      omega

/-! #### State operation lemmas -/

theorem pts_length_setVisited (st : St α) (i : Nat) :
    (setVisited st i).pts.length = st.pts.length := by
  simp [setVisited]

theorem pts_length_writeLabel (st : St α) (i c : Nat) :
    (writeLabel st i c).pts.length = st.pts.length := by
  simp [writeLabel]

theorem nextClusterId_setVisited (st : St α) (i : Nat) :
    (setVisited st i).nextClusterId = st.nextClusterId := rfl

theorem nextClusterId_writeLabel (st : St α) (i c : Nat) :
    (writeLabel st i c).nextClusterId = st.nextClusterId := rfl

theorem log_setVisited (st : St α) (i : Nat) : (setVisited st i).log = st.log := rfl

theorem log_writeLabel (st : St α) (i c : Nat) :
    (writeLabel st i c).log = (i, labelOf st i, c) :: st.log := rfl

theorem map_coordsOf_setVisited (st : St α) (i : Nat) :
    (setVisited st i).pts.map coordsOf = st.pts.map coordsOf := by
  simpa [setVisited, getPt] using
    map_coordsOf_set st.pts i (fun p => { p with visited := true }) (fun p => rfl)

theorem map_coordsOf_writeLabel (st : St α) (i c : Nat) :
    (writeLabel st i c).pts.map coordsOf = st.pts.map coordsOf := by
  simpa [writeLabel, getPt] using
    map_coordsOf_set st.pts i (fun p => { p with clusterId := c }) (fun p => rfl)

theorem getPt_setVisited_self (st : St α) (i : Nat) (hi : i < st.pts.length) :
    getPt (setVisited st i) i = { getPt st i with visited := true } := by
  show (st.pts.set i { getPt st i with visited := true }).getD i default =
    { getPt st i with visited := true }
  exact getD_set_self st.pts i _ _ hi

theorem getPt_setVisited_ne (st : St α) (i j : Nat) (hij : i ≠ j) :
    getPt (setVisited st i) j = getPt st j := by
  show (st.pts.set i { getPt st i with visited := true }).getD j default =
    st.pts.getD j default
  exact getD_set_ne st.pts i j _ _ hij

theorem getPt_writeLabel_self (st : St α) (i c : Nat) (hi : i < st.pts.length) :
    getPt (writeLabel st i c) i = { getPt st i with clusterId := c } := by
  show (st.pts.set i { getPt st i with clusterId := c }).getD i default =
    { getPt st i with clusterId := c }
  exact getD_set_self st.pts i _ _ hi

theorem getPt_writeLabel_ne (st : St α) (i j c : Nat) (hij : i ≠ j) :
    getPt (writeLabel st i c) j = getPt st j := by
  show (st.pts.set i { getPt st i with clusterId := c }).getD j default =
    st.pts.getD j default
  exact getD_set_ne st.pts i j _ _ hij

theorem getPt_setVisited_oob (st : St α) (i : Nat) (hi : st.pts.length ≤ i) (j : Nat) :
    getPt (setVisited st i) j = getPt st j := by
  show (st.pts.set i { getPt st i with visited := true }).getD j default =
    st.pts.getD j default
  rw [set_of_length_le st.pts i _ hi]

theorem getPt_writeLabel_oob (st : St α) (i c : Nat) (hi : st.pts.length ≤ i) (j : Nat) :
    getPt (writeLabel st i c) j = getPt st j := by
  show (st.pts.set i { getPt st i with clusterId := c }).getD j default =
    st.pts.getD j default
  rw [set_of_length_le st.pts i _ hi]

theorem visitedOf_setVisited_self (st : St α) (i : Nat) (hi : i < st.pts.length) :
    visitedOf (setVisited st i) i = true := by
  simp [visitedOf, getPt_setVisited_self st i hi]

theorem visitedOf_setVisited_mono (st : St α) (i j : Nat)
    (h : visitedOf st j = true) : visitedOf (setVisited st i) j = true := by
  by_cases hij : i = j
  · subst hij
    by_cases hi : i < st.pts.length
    · simp [visitedOf, getPt_setVisited_self st i hi]
    · rw [visitedOf, getPt_setVisited_oob st i (by omega)]
      exact h
  · rw [visitedOf, getPt_setVisited_ne st i j hij]
    exact h

theorem labelOf_setVisited (st : St α) (i j : Nat) :
    labelOf (setVisited st i) j = labelOf st j := by
  by_cases hij : i = j
  · subst hij
    by_cases hi : i < st.pts.length
    · simp [labelOf, getPt_setVisited_self st i hi]
    · rw [labelOf, getPt_setVisited_oob st i (by omega)]; rfl
  · rw [labelOf, getPt_setVisited_ne st i j hij]; rfl

theorem visitedOf_writeLabel (st : St α) (i j c : Nat) :
    visitedOf (writeLabel st i c) j = visitedOf st j := by
  by_cases hij : i = j
  · subst hij
    by_cases hi : i < st.pts.length
    · simp [visitedOf, getPt_writeLabel_self st i c hi]
    · rw [visitedOf, getPt_writeLabel_oob st i c (by omega)]; rfl
  · rw [visitedOf, getPt_writeLabel_ne st i j c hij]; rfl

theorem labelOf_writeLabel_self (st : St α) (i c : Nat) (hi : i < st.pts.length) :
    labelOf (writeLabel st i c) i = c := by
  simp [labelOf, getPt_writeLabel_self st i c hi]

theorem labelOf_writeLabel_ne (st : St α) (i j c : Nat) (hij : i ≠ j) :
    labelOf (writeLabel st i c) j = labelOf st j := by
  rw [labelOf, getPt_writeLabel_ne st i j c hij]; rfl

theorem labelOf_writeLabel_oob (st : St α) (i c : Nat) (hi : st.pts.length ≤ i) (j : Nat) :
    labelOf (writeLabel st i c) j = labelOf st j := by
  rw [labelOf, getPt_writeLabel_oob st i c hi]; rfl

theorem labelOf_writeLabel_or (st : St α) (i j c : Nat) :
    labelOf (writeLabel st i c) j = labelOf st j ∨ labelOf (writeLabel st i c) j = c := by
  by_cases hij : i = j
  · subst hij
    by_cases hi : i < st.pts.length
    · exact Or.inr (labelOf_writeLabel_self st i c hi)
    · exact Or.inl (labelOf_writeLabel_oob st i c (by omega) i)
  · exact Or.inl (labelOf_writeLabel_ne st i j c hij)

theorem unvisitedCount_setVisited (st : St α) (i : Nat) (hi : i < st.pts.length)
    (hv : visitedOf st i = false) :
    unvisitedCount (setVisited st i) + 1 = unvisitedCount st := by
  simpa [unvisitedCount, setVisited, getPt] using
    countUnvisited_setTrue st.pts i hi hv

theorem unvisitedCount_writeLabel (st : St α) (i c : Nat) :
    unvisitedCount (writeLabel st i c) = unvisitedCount st := by
  simpa [unvisitedCount, writeLabel, getPt] using countUnvisited_setLabel st.pts i c

theorem unvisitedCount_le (st : St α) : unvisitedCount st ≤ st.pts.length :=
  countUnvisited_le st.pts

/-!
Section: The clustering algorithm (sequential linearization)

`expandCluster` (project.cpp lines 63-85) assigns `clusterId` to its point
and then loops over the neighbor buffer; for each neighbor it test-and-sets
`visited`, recursing when the neighbor is itself a core point, and finally
absorbs the neighbor if its label is still 0. The loop together with the
recursion is modelled by `expandFrom`, which processes the remaining
neighbor list of the current call; a recursive C++ call
`expandCluster(neighbors[i], newNeighbors, ...)` appears as the label
write for `neighbors[i]` followed by `expandFrom` on `newNeighbors`.
`fuel` is a modeling artifact bounding the number of loop steps and calls;
the fuel-sufficiency theorems below show a fuel budget computed from the
point count never runs out, which is exactly the termination argument of
the C++ recursion. -/

theorem evolves_refl (c : Nat) (st : St α) : Evolves c st st :=
  ⟨rfl, rfl, fun _ h => h, fun _ => Or.inl rfl⟩

theorem evolves_trans {c : Nat} {s1 s2 s3 : St α}
    (h12 : Evolves c s1 s2) (h23 : Evolves c s2 s3) : Evolves c s1 s3 := by
  obtain ⟨a12, b12, c12, d12⟩ := h12
  obtain ⟨a23, b23, c23, d23⟩ := h23
  refine ⟨a23.trans a12, b23.trans b12, fun i h => c23 i (c12 i h), fun i => ?_⟩
  rcases d23 i with h | h
  · rw [h]; exact d12 i
  · exact Or.inr h

theorem evolves_length {c : Nat} {st st' : St α} (h : Evolves c st st') :
    st'.pts.length = st.pts.length := by
  have := congrArg List.length h.1
  simpa using this

theorem evolves_setVisited (c : Nat) (st : St α) (i : Nat) :
    Evolves c st (setVisited st i) :=
  ⟨map_coordsOf_setVisited st i, rfl,
    fun j h => visitedOf_setVisited_mono st i j h,
    fun j => Or.inl (labelOf_setVisited st i j)⟩

theorem evolves_writeLabel (c : Nat) (st : St α) (i : Nat) :
    Evolves c st (writeLabel st i c) :=
  ⟨map_coordsOf_writeLabel st i c, rfl,
    fun j h => by rw [visitedOf_writeLabel]; exact h,
    fun j => labelOf_writeLabel_or st i j c⟩

theorem evolves_unvisitedCount {c : Nat} {st st' : St α} (h : Evolves c st st') :
    unvisitedCount st' ≤ unvisitedCount st := by
  refine countUnvisited_mono st.pts st'.pts (evolves_length h) ?_
  intro k _ hk
  exact h.2.2.1 k hk

/-- Frame lemma for the expansion loop: a successful `expandFrom` run with
cluster id `c` only performs the state changes allowed by `Evolves c`. -/

theorem expandFrom_evolves (epsSq : α) (minPts c : Nat) :
    ∀ (fuel : Nat) (ns : List Nat) (st st' : St α),
      expandFrom epsSq minPts c fuel ns st = some st' → Evolves c st st' := by
  intro fuel
  induction fuel with
  | zero =>
    intro ns st st' h
    cases ns with
    | nil =>
      simp only [expandFrom, Option.some.injEq] at h
      exact h ▸ evolves_refl c st
    | cons ni rest => simp [expandFrom] at h
  | succ fuel ih =>
    intro ns st st' h
    cases ns with
    | nil =>
      simp only [expandFrom, Option.some.injEq] at h
      exact h ▸ evolves_refl c st
    | cons ni rest =>
      simp only [expandFrom] at h
      by_cases hvis : visitedOf st ni = true
      · rw [if_pos hvis, Option.some_bind] at h
        by_cases hl : labelOf st ni = 0
        · rw [if_pos hl] at h
          exact evolves_trans (evolves_writeLabel c st ni) (ih rest _ st' h)
        · rw [if_neg hl] at h
          exact ih rest st st' h
      · rw [if_neg hvis] at h
        by_cases hcore :
            minPts ≤ (findNeighbors (setVisited st ni).pts (getPt (setVisited st ni) ni)
              epsSq MAX_NEIGHBORS).length
        · rw [if_pos hcore] at h
          rcases Option.bind_eq_some.mp h with ⟨st2, hst2, hrest⟩
          have e1 : Evolves c st (writeLabel (setVisited st ni) ni c) :=
            evolves_trans (evolves_setVisited c st ni)
              (evolves_writeLabel c (setVisited st ni) ni)
          have e2 : Evolves c st st2 := evolves_trans e1 (ih _ _ st2 hst2)
          by_cases hl : labelOf st2 ni = 0
          · rw [if_pos hl] at hrest
            exact evolves_trans (evolves_trans e2 (evolves_writeLabel c st2 ni))
              (ih rest _ st' hrest)
          · rw [if_neg hl] at hrest
            exact evolves_trans e2 (ih rest st2 st' hrest)
        · rw [if_neg hcore, Option.some_bind] at h
          have e1 : Evolves c st (setVisited st ni) := evolves_setVisited c st ni
          by_cases hl : labelOf (setVisited st ni) ni = 0
          · rw [if_pos hl] at h
            exact evolves_trans (evolves_trans e1 (evolves_writeLabel c (setVisited st ni) ni))
              (ih rest _ st' h)
          · rw [if_neg hl] at h
            exact evolves_trans e1 (ih rest _ st' h)

/-- Fuel sufficiency for the expansion loop: a fuel budget computed from
the number of still-unvisited points (each is test-and-set visited at most
once, so each can trigger at most one recursive expansion, of at most
`pts.length` loop steps) never runs out. This is the termination argument
of the recursion in project.cpp lines 63-85. -/

theorem expandFrom_isSome (epsSq : α) (minPts c : Nat) :
    ∀ (fuel : Nat) (ns : List Nat) (st : St α),
      (∀ j ∈ ns, j < st.pts.length) →
      ns.length + 1 + unvisitedCount st * (st.pts.length + 1) ≤ fuel →
      ∃ st', expandFrom epsSq minPts c fuel ns st = some st' := by
  intro fuel
  induction fuel with
  | zero => intro ns st _ hb; omega
  | succ fuel ih =>
    intro ns st hidx hb
    cases ns with
    | nil => exact ⟨st, by simp [expandFrom]⟩
    | cons ni rest =>
      simp only [List.length_cons] at hb
      simp only [expandFrom]
      by_cases hvis : visitedOf st ni = true
      · rw [if_pos hvis, Option.some_bind]
        set st3 := if labelOf st ni = 0 then writeLabel st ni c else st with hst3
        have hlen3 : st3.pts.length = st.pts.length := by
          rw [hst3]; split
          · exact pts_length_writeLabel st ni c
          · rfl
        have hU3 : unvisitedCount st3 = unvisitedCount st := by
          rw [hst3]; split
          · exact unvisitedCount_writeLabel st ni c
          · rfl
        refine ih rest st3 ?_ ?_
        · intro j hj; rw [hlen3]; exact hidx j (List.mem_cons_of_mem _ hj)
        · rw [hU3, hlen3]; omega
      · rw [if_neg hvis]
        have hni : ni < st.pts.length := hidx ni (List.mem_cons_self _ _)
        have hvf : visitedOf st ni = false := by
          simpa using hvis
        have hdec : unvisitedCount (setVisited st ni) + 1 = unvisitedCount st :=
          unvisitedCount_setVisited st ni hni hvf
        set st1 := setVisited st ni with hst1
        have hlen1 : st1.pts.length = st.pts.length := pts_length_setVisited st ni
        set nn := findNeighbors st1.pts (getPt st1 ni) epsSq MAX_NEIGHBORS with hnn
        have hnnlen : nn.length ≤ st.pts.length := by
          rw [hnn, ← hlen1]; exact findNeighbors_length_le_pts _ _ _ _
        by_cases hcore : minPts ≤ nn.length
        · rw [if_pos hcore]
          have hUw : unvisitedCount (writeLabel st1 ni c) + 1 = unvisitedCount st := by
            rw [unvisitedCount_writeLabel]; exact hdec
          have hlenw : (writeLabel st1 ni c).pts.length = st.pts.length := by
            rw [pts_length_writeLabel, hlen1]
          have hmul : unvisitedCount st * (st.pts.length + 1) =
              unvisitedCount (writeLabel st1 ni c) * (st.pts.length + 1) +
                (st.pts.length + 1) := by
            rw [← hUw, Nat.succ_mul]
          obtain ⟨st2, h2⟩ := ih nn (writeLabel st1 ni c)
            (by
              intro j hj
              rw [hlenw]
              have := mem_findNeighbors_lt st1.pts (getPt st1 ni) epsSq MAX_NEIGHBORS
                (by rw [← hnn]; exact hj)
              omega)
            (by rw [hlenw]; omega)
          simp only [h2, Option.some_bind]
          have hev : Evolves c (writeLabel st1 ni c) st2 :=
            expandFrom_evolves epsSq minPts c fuel nn (writeLabel st1 ni c) st2 h2
          have hlen2 : st2.pts.length = st.pts.length := by
            rw [evolves_length hev, hlenw]
          have hU2 : unvisitedCount st2 + 1 ≤ unvisitedCount st := by
            have := evolves_unvisitedCount hev
            omega
          set st3 := if labelOf st2 ni = 0 then writeLabel st2 ni c else st2 with hst3
          have hlen3 : st3.pts.length = st.pts.length := by
            rw [hst3]; split
            · rw [pts_length_writeLabel]; exact hlen2
            · exact hlen2
          have hU3 : unvisitedCount st3 ≤ unvisitedCount st2 := by
            rw [hst3]; split
            · rw [unvisitedCount_writeLabel]
            · exact le_refl _
          refine ih rest st3 ?_ ?_
          · intro j hj; rw [hlen3]; exact hidx j (List.mem_cons_of_mem _ hj)
          · have hmono : unvisitedCount st3 * (st.pts.length + 1) ≤
                unvisitedCount (writeLabel st1 ni c) * (st.pts.length + 1) :=
              Nat.mul_le_mul_right _ (by omega)
            rw [hlen3]
            omega
        · rw [if_neg hcore, Option.some_bind]
          set st3 := if labelOf st1 ni = 0 then writeLabel st1 ni c else st1 with hst3
          have hlen3 : st3.pts.length = st.pts.length := by
            rw [hst3]; split
            · rw [pts_length_writeLabel]; exact hlen1
            · exact hlen1
          have hU3 : unvisitedCount st3 + 1 = unvisitedCount st := by
            rw [hst3]; split
            · rw [unvisitedCount_writeLabel]; exact hdec
            · exact hdec
          have hmul : unvisitedCount st * (st.pts.length + 1) =
              unvisitedCount st3 * (st.pts.length + 1) + (st.pts.length + 1) := by
            rw [← hU3, Nat.succ_mul]
          refine ih rest st3 ?_ ?_
          · intro j hj; rw [hlen3]; exact hidx j (List.mem_cons_of_mem _ hj)
          · rw [hlen3]; omega

/-!
Section: Label-write monotonicity (sequential executions)
-/

/-- Invariant: a labeled point has been visited. It holds initially (all
labels are 0) and is preserved by every operation of the sequential run. -/

theorem label_zero_of_unvisited {st : St α} (hInv : Inv st) {i : Nat}
    (h : visitedOf st i = false) : labelOf st i = 0 := by
  by_contra hne
  rw [hInv i hne] at h
  cases h

theorem Inv_setVisited {st : St α} (hInv : Inv st) (i : Nat) : Inv (setVisited st i) := by
  intro j hl
  rw [labelOf_setVisited] at hl
  exact visitedOf_setVisited_mono st i j (hInv j hl)

theorem Inv_writeLabel {st : St α} (hInv : Inv st) {i : Nat} (c : Nat)
    (h : st.pts.length ≤ i ∨ visitedOf st i = true) : Inv (writeLabel st i c) := by
  intro j hl
  rw [visitedOf_writeLabel]
  by_cases hij : i = j
  · subst hij
    rcases h with h | h
    · rw [labelOf_writeLabel_oob st i c h] at hl
      exact hInv i hl
    · exact h
  · rw [labelOf_writeLabel_ne st i j c hij] at hl
    exact hInv j hl

theorem GoodLog_setVisited {st : St α} (hG : GoodLog st) (i : Nat) :
    GoodLog (setVisited st i) := by
  intro e he
  rw [log_setVisited] at he
  exact hG e he

theorem GoodLog_writeLabel {st : St α} (hG : GoodLog st) {i c : Nat}
    (hl : labelOf st i = 0) (hc : 1 ≤ c) : GoodLog (writeLabel st i c) := by
  intro e he
  rw [log_writeLabel] at he
  rcases List.mem_cons.mp he with he | he
  · subst he; exact ⟨hl, hc⟩
  · exact hG e he

/-- Through a successful expansion with cluster id `c ≥ 1`, the
labeled-implies-visited invariant is preserved and every logged label
write remains a `0 → positive` transition: `expandCluster` never
overwrites a nonzero label and never writes 0, in the sequential model. -/

theorem expandFrom_inv (epsSq : α) (minPts c : Nat) (hc : 1 ≤ c) :
    ∀ (fuel : Nat) (ns : List Nat) (st st' : St α),
      Inv st → GoodLog st →
      expandFrom epsSq minPts c fuel ns st = some st' → Inv st' ∧ GoodLog st' := by
  intro fuel
  induction fuel with
  | zero =>
    intro ns st st' hInv hG h
    cases ns with
    | nil =>
      simp only [expandFrom, Option.some.injEq] at h
      exact h ▸ ⟨hInv, hG⟩
    | cons ni rest => simp [expandFrom] at h
  | succ fuel ih =>
    intro ns st st' hInv hG h
    cases ns with
    | nil =>
      simp only [expandFrom, Option.some.injEq] at h
      exact h ▸ ⟨hInv, hG⟩
    | cons ni rest =>
      simp only [expandFrom] at h
      by_cases hvis : visitedOf st ni = true
      · rw [if_pos hvis, Option.some_bind] at h
        by_cases hl : labelOf st ni = 0
        · rw [if_pos hl] at h
          exact ih rest _ st'
            (Inv_writeLabel hInv c (Or.inr hvis))
            (GoodLog_writeLabel hG hl hc) h
        · rw [if_neg hl] at h
          exact ih rest st st' hInv hG h
      · rw [if_neg hvis] at h
        have hvf : visitedOf st ni = false := by simpa using hvis
        have hl0 : labelOf st ni = 0 := label_zero_of_unvisited hInv hvf
        have hInv1 : Inv (setVisited st ni) := Inv_setVisited hInv ni
        have hG1 : GoodLog (setVisited st ni) := GoodLog_setVisited hG ni
        have hl1 : labelOf (setVisited st ni) ni = 0 := by
          rw [labelOf_setVisited]; exact hl0
        have hrange : (setVisited st ni).pts.length ≤ ni ∨
            visitedOf (setVisited st ni) ni = true := by
          by_cases hni : ni < st.pts.length
          · exact Or.inr (visitedOf_setVisited_self st ni hni)
          · exact Or.inl (by rw [pts_length_setVisited]; omega)
        by_cases hcore :
            minPts ≤ (findNeighbors (setVisited st ni).pts (getPt (setVisited st ni) ni)
              epsSq MAX_NEIGHBORS).length
        · rw [if_pos hcore] at h
          rcases Option.bind_eq_some.mp h with ⟨st2, hst2, hrest⟩
          have hInvW : Inv (writeLabel (setVisited st ni) ni c) :=
            Inv_writeLabel hInv1 c hrange
          have hGW : GoodLog (writeLabel (setVisited st ni) ni c) :=
            GoodLog_writeLabel hG1 hl1 hc
          obtain ⟨hInv2, hG2⟩ := ih _ _ st2 hInvW hGW hst2
          have hev : Evolves c (writeLabel (setVisited st ni) ni c) st2 :=
            expandFrom_evolves epsSq minPts c fuel _ _ st2 hst2
          have hrange2 : st2.pts.length ≤ ni ∨ visitedOf st2 ni = true := by
            by_cases hni : ni < st.pts.length
            · refine Or.inr (hev.2.2.1 ni ?_)
              rw [visitedOf_writeLabel]
              exact visitedOf_setVisited_self st ni hni
            · refine Or.inl ?_
              rw [evolves_length hev, pts_length_writeLabel, pts_length_setVisited]
              omega
          by_cases hl2 : labelOf st2 ni = 0
          · rw [if_pos hl2] at hrest
            exact ih rest _ st' (Inv_writeLabel hInv2 c hrange2)
              (GoodLog_writeLabel hG2 hl2 hc) hrest
          · rw [if_neg hl2] at hrest
            exact ih rest st2 st' hInv2 hG2 hrest
        · rw [if_neg hcore, Option.some_bind] at h
          by_cases hl2 : labelOf (setVisited st ni) ni = 0
          · rw [if_pos hl2] at h
            exact ih rest _ st' (Inv_writeLabel hInv1 c hrange)
              (GoodLog_writeLabel hG1 hl2 hc) h
          · rw [if_neg hl2] at h
            exact ih rest _ st' hInv1 hG1 h

/-!
Section: Whole-run lemmas
-/

/-- What any per-point worker may do to the state: coordinates untouched,
visited flags only ever set. -/

theorem keeps_refl (st : St α) : Keeps st st := ⟨rfl, fun _ h => h⟩

theorem keeps_trans {s1 s2 s3 : St α} (h12 : Keeps s1 s2) (h23 : Keeps s2 s3) :
    Keeps s1 s3 :=
  ⟨h23.1.trans h12.1, fun i h => h23.2 i (h12.2 i h)⟩

theorem keeps_length {st st' : St α} (h : Keeps st st') :
    st'.pts.length = st.pts.length := by
  have := congrArg List.length h.1
  simpa using this

theorem evolves_keeps {c : Nat} {st st' : St α} (h : Evolves c st st') : Keeps st st' :=
  ⟨h.1, h.2.2.1⟩

theorem processPoint_keeps (i : Nat) (epsSq : α) (minPts fuel : Nat) {st st' : St α}
    (h : processPoint i epsSq minPts fuel st = some st') : Keeps st st' := by
  rw [processPoint] at h
  by_cases hvis : visitedOf st i = true
  · rw [if_pos hvis] at h
    cases h
    exact keeps_refl st
  · rw [if_neg hvis] at h
    by_cases hcore :
        minPts ≤ (findNeighbors (setVisited st i).pts (getPt (setVisited st i) i)
          epsSq MAX_NEIGHBORS).length
    · rw [if_pos hcore] at h
      rw [expandCluster] at h
      have hev := expandFrom_evolves epsSq minPts _ fuel _ _ st' h
      have k1 : Keeps st (setVisited st i) := evolves_keeps (evolves_setVisited 0 st i)
      have k2 : Keeps (setVisited st i)
          { setVisited st i with nextClusterId := (setVisited st i).nextClusterId + 1 } :=
        keeps_refl _
      have k3 : Keeps { setVisited st i with
            nextClusterId := (setVisited st i).nextClusterId + 1 } st' :=
        keeps_trans (evolves_keeps (evolves_writeLabel _ _ i)) (evolves_keeps hev)
      exact keeps_trans k1 (keeps_trans k2 k3)
    · rw [if_neg hcore] at h
      cases h
      exact evolves_keeps (evolves_setVisited 0 st i)

theorem processPoint_inv (i : Nat) (epsSq : α) (minPts fuel : Nat) {st st' : St α}
    (hInv : Inv st) (hG : GoodLog st)
    (h : processPoint i epsSq minPts fuel st = some st') : Inv st' ∧ GoodLog st' := by
  rw [processPoint] at h
  by_cases hvis : visitedOf st i = true
  · rw [if_pos hvis] at h
    cases h
    exact ⟨hInv, hG⟩
  · rw [if_neg hvis] at h
    have hvf : visitedOf st i = false := by simpa using hvis
    have hInv1 : Inv (setVisited st i) := Inv_setVisited hInv i
    have hG1 : GoodLog (setVisited st i) := GoodLog_setVisited hG i
    by_cases hcore :
        minPts ≤ (findNeighbors (setVisited st i).pts (getPt (setVisited st i) i)
          epsSq MAX_NEIGHBORS).length
    · rw [if_pos hcore] at h
      rw [expandCluster] at h
      set stc : St α := { setVisited st i with
        nextClusterId := (setVisited st i).nextClusterId + 1 } with hstc
      have hInvc : Inv stc := hInv1
      have hGc : GoodLog stc := hG1
      have hl0 : labelOf stc i = 0 := by
        have : labelOf (setVisited st i) i = 0 := by
          rw [labelOf_setVisited]
          exact label_zero_of_unvisited hInv hvf
        exact this
      have hrange : stc.pts.length ≤ i ∨ visitedOf stc i = true := by
        by_cases hni : i < st.pts.length
        · exact Or.inr (visitedOf_setVisited_self st i hni)
        · refine Or.inl ?_
          show (setVisited st i).pts.length ≤ i
          rw [pts_length_setVisited]
          omega
      exact expandFrom_inv epsSq minPts _ (by omega) fuel _ _ st'
        (Inv_writeLabel hInvc _ hrange)
        (GoodLog_writeLabel hGc hl0 (by omega)) h
    · rw [if_neg hcore] at h
      cases h
      exact ⟨hInv1, hG1⟩

theorem processPoint_isSome (i : Nat) (epsSq : α) (minPts fuel : Nat) (st : St α)
    (hfuel : (st.pts.length + 1) * (st.pts.length + 2) ≤ fuel) :
    ∃ st', processPoint i epsSq minPts fuel st = some st' := by
  rw [processPoint]
  by_cases hvis : visitedOf st i = true
  · exact ⟨st, by rw [if_pos hvis]⟩
  · rw [if_neg hvis]
    by_cases hcore :
        minPts ≤ (findNeighbors (setVisited st i).pts (getPt (setVisited st i) i)
          epsSq MAX_NEIGHBORS).length
    · rw [if_pos hcore]
      rw [expandCluster]
      set st1 := setVisited st i with hst1
      set stc : St α := { st1 with nextClusterId := st1.nextClusterId + 1 } with hstc
      set nn := findNeighbors st1.pts (getPt st1 i) epsSq MAX_NEIGHBORS with hnn
      have hlen1 : st1.pts.length = st.pts.length := pts_length_setVisited st i
      have hlenw : (writeLabel stc i (st1.nextClusterId + 1)).pts.length = st.pts.length := by
        rw [pts_length_writeLabel]
        show st1.pts.length = st.pts.length
        exact hlen1
      have hnnlen : nn.length ≤ st.pts.length := by
        rw [hnn, ← hlen1]
        exact findNeighbors_length_le_pts _ _ _ _
      have hU1 : unvisitedCount st1 ≤ st.pts.length := by
        have h1 : unvisitedCount st1 ≤ unvisitedCount st :=
          evolves_unvisitedCount (evolves_setVisited 0 st i)
        have h2 := unvisitedCount_le st
        omega
      have hUw : unvisitedCount (writeLabel stc i (st1.nextClusterId + 1)) ≤
          st.pts.length := by
        rw [unvisitedCount_writeLabel]
        exact hU1
      apply expandFrom_isSome
      · intro j hj
        rw [hlenw]
        have := mem_findNeighbors_lt st1.pts (getPt st1 i) epsSq MAX_NEIGHBORS
          (by rw [← hnn]; exact hj)
        omega
      · rw [hlenw]
        have hmono : unvisitedCount (writeLabel stc i (st1.nextClusterId + 1)) *
            (st.pts.length + 1) ≤ st.pts.length * (st.pts.length + 1) :=
          Nat.mul_le_mul_right _ hUw
        have he1 : (st.pts.length + 1) * (st.pts.length + 2) =
            st.pts.length * (st.pts.length + 1) + (st.pts.length + 1) +
              (st.pts.length + 1) := by ring
        omega
    · rw [if_neg hcore]
      exact ⟨setVisited st i, rfl⟩

theorem dbscanLoop_keeps (epsSq : α) (minPts fuel : Nat) :
    ∀ (idxs : List Nat) (st st' : St α),
      dbscanLoop epsSq minPts fuel idxs st = some st' → Keeps st st' := by
  intro idxs
  induction idxs with
  | nil =>
    intro st st' h
    simp only [dbscanLoop, Option.some.injEq] at h
    exact h ▸ keeps_refl st
  | cons i rest ih =>
    intro st st' h
    rw [dbscanLoop] at h
    by_cases ho : isOrigin (getPt st i) = true
    · rw [if_pos ho] at h
      exact ih st st' h
    · rw [if_neg ho] at h
      rcases Option.bind_eq_some.mp h with ⟨st2, h1, h2⟩
      exact keeps_trans (processPoint_keeps i epsSq minPts fuel h1) (ih st2 st' h2)

theorem dbscanLoop_inv (epsSq : α) (minPts fuel : Nat) :
    ∀ (idxs : List Nat) (st st' : St α), Inv st → GoodLog st →
      dbscanLoop epsSq minPts fuel idxs st = some st' → Inv st' ∧ GoodLog st' := by
  intro idxs
  induction idxs with
  | nil =>
    intro st st' hInv hG h
    simp only [dbscanLoop, Option.some.injEq] at h
    exact h ▸ ⟨hInv, hG⟩
  | cons i rest ih =>
    intro st st' hInv hG h
    rw [dbscanLoop] at h
    by_cases ho : isOrigin (getPt st i) = true
    · rw [if_pos ho] at h
      exact ih st st' hInv hG h
    · rw [if_neg ho] at h
      rcases Option.bind_eq_some.mp h with ⟨st2, h1, h2⟩
      obtain ⟨hInv2, hG2⟩ := processPoint_inv i epsSq minPts fuel hInv hG h1
      exact ih st2 st' hInv2 hG2 h2

theorem dbscanLoop_isSome (epsSq : α) (minPts fuel : Nat) :
    ∀ (idxs : List Nat) (st : St α),
      (st.pts.length + 1) * (st.pts.length + 2) ≤ fuel →
      ∃ st', dbscanLoop epsSq minPts fuel idxs st = some st' := by
  intro idxs
  induction idxs with
  | nil => intro st _; exact ⟨st, rfl⟩
  | cons i rest ih =>
    intro st hfuel
    rw [dbscanLoop]
    by_cases ho : isOrigin (getPt st i) = true
    · rw [if_pos ho]
      exact ih st hfuel
    · rw [if_neg ho]
      obtain ⟨st2, h1⟩ := processPoint_isSome i epsSq minPts fuel st hfuel
      have hlen : st2.pts.length = st.pts.length :=
        keeps_length (processPoint_keeps i epsSq minPts fuel h1)
      obtain ⟨st', h2⟩ := ih st2 (by rw [hlen]; exact hfuel)
      exact ⟨st', by rw [h1, Option.some_bind, h2]⟩

/-- A full `dbscan` run always returns a final state: the code performs no
configuration validation and cannot reject or abort. -/

theorem dbscan_isSome (epsilon : α) (minPts : Nat) (st : St α) :
    ∃ st', dbscan epsilon minPts st = some st' :=
  dbscanLoop_isSome (epsilon * epsilon) minPts (dbscanFuel st)
    (idxFrom 0 st.pts.length) st (le_refl _)

theorem loadPoints_label (input : List (α × α)) :
    ∀ i, ((loadPoints input).getD i default).clusterId = 0 := by
  rw [loadPoints]
  generalize input.take MAX_POINTS = l
  induction l with
  | nil => intro i; cases i <;> rfl
  | cons q rest ih =>
    intro i
    cases i with
    | zero => rfl
    | succ i => simpa using ih i

theorem loadPoints_visited (input : List (α × α)) :
    ∀ i, ((loadPoints input).getD i default).visited = false := by
  rw [loadPoints]
  generalize input.take MAX_POINTS = l
  induction l with
  | nil => intro i; cases i <;> rfl
  | cons q rest ih =>
    intro i
    cases i with
    | zero => rfl
    | succ i => simpa using ih i

theorem Inv_initSt (input : List (α × α)) : Inv (initSt input) := by
  intro i hl
  exact absurd (loadPoints_label input i) hl

theorem GoodLog_initSt (input : List (α × α)) : GoodLog (initSt input) := by
  intro e he
  cases he

/-- Every label write logged by a full run (any epsilon, any minPts, any
input) takes a point from label 0 to a positive cluster id. -/

theorem runLog_good (input : List (α × α)) (epsilon : α) (minPts : Nat) :
    ∀ e ∈ runLog input epsilon minPts, e.2.1 = 0 ∧ 1 ≤ e.2.2 := by
  intro e he
  obtain ⟨st', h⟩ := dbscan_isSome epsilon minPts (initSt input)
  rw [runLog, h] at he
  have hG : GoodLog st' :=
    (dbscanLoop_inv (epsilon * epsilon) minPts (dbscanFuel (initSt input))
      (idxFrom 0 (initSt input).pts.length) (initSt input) st'
      (Inv_initSt input) (GoodLog_initSt input) h).2
  exact hG e he

theorem outputTriples_proj :
    ∀ pts : List (Point α),
      (outputTriples pts).map (fun t => (t.1, t.2.1)) =
        (pts.map coordsOf).filter (fun c => !(originC c)) := by
  intro pts
  induction pts with
  | nil => rfl
  | cons p rest ih =>
    by_cases ho : isOrigin p = true
    · have ho' : originC (coordsOf p) = true := ho
      simp only [outputTriples, List.filterMap_cons, ho, if_pos rfl, List.map_cons,
        List.filter_cons, ho', Bool.not_true]
      simpa [outputTriples] using ih
    · have hob : isOrigin p = false := by simpa using ho
      have ho' : originC (coordsOf p) = false := hob
      simp only [outputTriples, List.filterMap_cons, hob, List.map_cons,
        List.filter_cons, ho', Bool.not_false]
      simp only [Bool.false_eq_true, if_false, List.map_cons]
      refine congrArg (List.cons _) ?_
      simpa [outputTriples] using ih

theorem map_coordsOf_loadPoints (input : List (α × α)) :
    (loadPoints input).map coordsOf = input.take MAX_POINTS := by
  rw [loadPoints]
  generalize input.take MAX_POINTS = l
  induction l with
  | nil => rfl
  | cons c rest ih => simpa [coordsOf] using ih

theorem loadPoints_ne_nil {input : List (α × α)} (h : input ≠ []) :
    loadPoints input ≠ [] := by
  have hlen : (loadPoints input).length = min MAX_POINTS input.length := by
    simp [loadPoints]
  have hpos : 0 < (loadPoints input).length := by
    rw [hlen]
    have : 0 < input.length := List.length_pos.mpr h
    have hM : 0 < MAX_POINTS := by norm_num [MAX_POINTS]
    omega
  exact List.ne_nil_of_length_pos hpos

/-- The output sequence of a run: one `(x, y, label)` triple per
non-origin loaded point, in input order. -/

theorem mainOutput_spec (input : List (α × α)) (hne : input ≠ []) (epsilon : α)
    (minPts : Nat) :
    ∃ out, mainOutput input epsilon minPts = some out ∧
      out.map (fun t => (t.1, t.2.1)) =
        (input.take MAX_POINTS).filter (fun c => !(originC c)) := by
  obtain ⟨st', h⟩ := dbscan_isSome epsilon minPts (initSt input)
  refine ⟨outputTriples st'.pts, ?_, ?_⟩
  · rw [mainOutput, if_neg (loadPoints_ne_nil hne), h]
    rfl
  · have hK : Keeps (initSt input) st' := by
      rw [dbscan] at h
      exact dbscanLoop_keeps _ _ _ _ _ _ h
    have hc : st'.pts.map coordsOf = input.take MAX_POINTS := by
      rw [hK.1]
      exact map_coordsOf_loadPoints input
    rw [outputTriples_proj, hc]

/-!
Section: Degenerate epsilon runs
-/

theorem getD_oob {α : Type _} :
    ∀ (l : List α) (j : Nat) (d : α), l.length ≤ j → l.getD j d = d := by
  intro l
  induction l with
  | nil => intro j d _; cases j <;> rfl
  | cons a t ih =>
    intro j d h
    cases j with
    | zero => simp at h
    | succ j => simpa using ih j d (by simpa using h)

theorem getD_map_coords :
    ∀ (l : List (Point α)) (j : Nat), j < l.length →
      (l.map coordsOf).getD j (0, 0) = coordsOf (l.getD j default) := by
  intro l
  induction l with
  | nil => intro j h; simp at h
  | cons a t ih =>
    intro j h
    cases j with
    | zero => rfl
    | succ j => simpa using ih j (by simpa using h)

theorem coordsOf_getPt_eq {st st' : St α}
    (h : st'.pts.map coordsOf = st.pts.map coordsOf) (j : Nat) :
    coordsOf (getPt st' j) = coordsOf (getPt st j) := by
  have hlen : st'.pts.length = st.pts.length := by
    have := congrArg List.length h
    simpa using this
  by_cases hj : j < st.pts.length
  · have h1 := getD_map_coords st'.pts j (by omega)
    have h2 := getD_map_coords st.pts j hj
    rw [getPt, getPt, ← h1, ← h2, h]
  · rw [getPt, getPt, getD_oob st'.pts j default (by omega),
      getD_oob st.pts j default (by omega)]

theorem distinctCoords_of_pointwise {l l' : List (Point α)}
    (hlen : l'.length = l.length)
    (hc : ∀ j, j < l.length → coordsOf (l'.getD j default) = coordsOf (l.getD j default))
    (hd : DistinctCoords l) : DistinctCoords l' := by
  intro j k hj hk hjk
  rw [hc j (by omega), hc k (by omega)]
  exact hd j k (by omega) (by omega) hjk

theorem loadPoints_distinct {input : List (α × α)}
    (hd : input.Pairwise (fun a b => a ≠ b)) :
    DistinctCoords (loadPoints input) := by
  intro j k hj hk hjk
  have hlen : (loadPoints input).length = (input.take MAX_POINTS).length := by
    simp [loadPoints]
  have htp : (input.take MAX_POINTS).Pairwise (fun a b => a ≠ b) :=
    hd.sublist (List.take_sublist MAX_POINTS input)
  have hco : ∀ m, m < (loadPoints input).length →
      coordsOf ((loadPoints input).getD m default) =
        (input.take MAX_POINTS).getD m (0, 0) := by
    intro m hm
    rw [← map_coordsOf_loadPoints input]
    exact (getD_map_coords (loadPoints input) m hm).symm
  rw [hco j hj, hco k hk]
  rw [List.getD_eq_getElem _ _ (by omega), List.getD_eq_getElem _ _ (by omega)]
  rw [List.pairwise_iff_getElem] at htp
  rcases Nat.lt_or_ge j k with hlt | hge
  · exact htp j k (by omega) (by omega) hlt
  · have hlt : k < j := by omega
    exact fun he => htp k j (by omega) (by omega) hlt he.symm

/-- Number of non-origin points among the first `k` slots: the cluster ids
handed out by the sequential eps = 0, minPts = 1 run. -/

theorem nvCount_mono (l : List (Point α)) : ∀ {i j : Nat}, i ≤ j → nvCount l i ≤ nvCount l j := by
  intro i j hij
  induction j with
  | zero => simp [Nat.le_zero.mp hij]
  | succ j ih =>
    rcases Nat.lt_or_ge i (j + 1) with h | h
    · have : nvCount l i ≤ nvCount l j := ih (by omega)
      have h2 : nvCount l j ≤ nvCount l (j + 1) := by
        rw [nvCount]; omega
      omega
    · have : i = j + 1 := by omega
      rw [this]

theorem nvCount_strict (l : List (Point α)) {i j : Nat} (hij : i < j)
    (h : isOrigin (l.getD i default) = false) : nvCount l i < nvCount l j := by
  have h1 : nvCount l (i + 1) = nvCount l i + 1 := by
    rw [nvCount, h]
    simp
  have h2 : nvCount l (i + 1) ≤ nvCount l j := nvCount_mono l (by omega)
  omega

theorem coords_eq_iff (p q : Point α) :
    coordsOf p = coordsOf q ↔ p.x = q.x ∧ p.y = q.y := by
  constructor
  · intro h
    exact ⟨congrArg Prod.fst h, congrArg Prod.snd h⟩
  · rintro ⟨h1, h2⟩
    rw [coordsOf, coordsOf, h1, h2]

theorem isOrigin_eq_of_coords {p q : Point α} (h : coordsOf p = coordsOf q) :
    isOrigin p = isOrigin q := by
  obtain ⟨h1, h2⟩ := (coords_eq_iff p q).mp h
  rw [isOrigin, isOrigin, h1, h2]

/-- With `epsilonSquared = 0` and pairwise-distinct coordinates, the range
query around the (non-origin) point at index `k` returns exactly `[k]`. -/

theorem findNeighbors_eq_singleton (l : List (Point α)) (k : Nat) (hk : k < l.length)
    (hno : isOrigin (l.getD k default) = false)
    (hd : DistinctCoords l) (p : Point α)
    (hp : coordsOf p = coordsOf (l.getD k default)) :
    findNeighbors l p 0 MAX_NEIGHBORS = [k] := by
  rw [findNeighbors_eq_take]
  have hsing : fullScan l p 0 = [k] := by
    rw [fullScan]
    apply scanIdx_eq_singleton p 0 l 0 k (by omega) (by omega)
    intro m hm
    constructor
    · intro hhit
      rw [hits] at hhit
      have hor : isOrigin (l.getD m default) = false := by
        by_cases hb : isOrigin (l.getD m default) = true
        · rw [hb] at hhit; simp at hhit
        · simpa using hb
      have hdist : squaredDistance p (l.getD m default) ≤ 0 := by
        rw [hor] at hhit
        simpa using hhit
      have hcoords : coordsOf p = coordsOf (l.getD m default) := by
        obtain ⟨h1, h2⟩ := (squaredDistance_le_zero_iff _ _).mp hdist
        exact (coords_eq_iff _ _).mpr ⟨h1, h2⟩
      by_contra hne
      have hmk : m ≠ k := by omega
      exact hd m k hm hk hmk (by rw [← hcoords, hp])
    · intro hmk
      have hmk' : m = k := by omega
      subst hmk'
      rw [hits, hno]
      have hdist : squaredDistance p (l.getD m default) ≤ 0 := by
        obtain ⟨h1, h2⟩ := (coords_eq_iff _ _).mp hp
        exact (squaredDistance_le_zero_iff _ _).mpr ⟨h1, h2⟩
      simpa using hdist
  rw [hsing]
  apply List.take_of_length_le
  simp [MAX_NEIGHBORS]

/-- Loop invariant of the sequential eps = 0, minPts = 1 run over points
with pairwise distinct coordinates: after the first `k` slots have been
handled, every processed non-origin point is visited and carries cluster
id `nvCount pts0 j + 1`, while origin points and unprocessed points are
untouched. -/

theorem phase1_loop (pts0 : List (Point α)) (hd : DistinctCoords pts0) (fuel : Nat)
    (hfuel : 1 ≤ fuel) :
    ∀ (m k : Nat) (st : St α), k + m = pts0.length → Phase1Inv pts0 k st →
      ∃ st', dbscanLoop 0 1 fuel (idxFrom k m) st = some st' ∧
        Phase1Inv pts0 pts0.length st' := by
  intro m
  induction m with
  | zero =>
    intro k st hkm hinv
    have hk : k = pts0.length := by omega
    exact ⟨st, rfl, hk ▸ hinv⟩
  | succ m ih =>
    intro k st hkm hinv
    obtain ⟨hlen, hnext, hco, hlab, hunv⟩ := hinv
    have hkn : k < pts0.length := by omega
    have hguard : isOrigin (getPt st k) = isOrigin (pts0.getD k default) :=
      isOrigin_eq_of_coords (hco k)
    rw [idxFrom, dbscanLoop]
    by_cases horig : isOrigin (pts0.getD k default) = true
    · rw [if_pos (by rw [hguard]; exact horig)]
      refine ih (k + 1) st (by omega) ⟨hlen, ?_, hco, ?_, ?_⟩
      · rw [nvCount, horig]
        simpa using hnext
      · intro j hj hno
        rcases Nat.lt_or_ge j k with h | h
        · exact hlab j h hno
        · have : j = k := by omega
          rw [this] at hno
          rw [horig] at hno
          cases hno
      · intro j hj
        rcases hj with hj | hj
        · exact hunv j (Or.inl (by omega))
        · exact hunv j (Or.inr hj)
    · have horigf : isOrigin (pts0.getD k default) = false := by simpa using horig
      rw [if_neg (by rw [hguard, horigf]; simp)]
      have hvisk : visitedOf st k = false := (hunv k (Or.inl (le_refl k))).1
      have hkl : k < st.pts.length := by omega
      set st1 := setVisited st k with hst1
      have hlen1 : st1.pts.length = pts0.length := by
        rw [hst1, pts_length_setVisited, hlen]
      have hco1 : ∀ j, coordsOf (getPt st1 j) = coordsOf (pts0.getD j default) := by
        intro j
        rw [← hco j, hst1]
        exact coordsOf_getPt_eq (map_coordsOf_setVisited st k) j
      have hd1 : DistinctCoords st1.pts :=
        distinctCoords_of_pointwise (by rw [hlen1]) (fun j _ => hco1 j) hd
      have hsing : findNeighbors st1.pts (getPt st1 k) 0 MAX_NEIGHBORS = [k] := by
        refine findNeighbors_eq_singleton st1.pts k (by omega) ?_ hd1 _ rfl
        show isOrigin (getPt st1 k) = false
        rw [isOrigin_eq_of_coords (hco1 k)]
        exact horigf
      set c := st1.nextClusterId + 1 with hc
      set stc : St α := { st1 with nextClusterId := c } with hstc
      set w := writeLabel stc k c with hw
      have hwlen : w.pts.length = pts0.length := by
        rw [hw, pts_length_writeLabel]
        exact hlen1
      have hvw : visitedOf w k = true := by
        rw [hw, visitedOf_writeLabel]
        show visitedOf st1 k = true
        rw [hst1]
        exact visitedOf_setVisited_self st k hkl
      have hlw : labelOf w k = c := by
        rw [hw]
        exact labelOf_writeLabel_self stc k c (by rw [hstc]; show k < st1.pts.length; omega)
      have hcge : 1 ≤ c := by rw [hc]; omega
      have hpp : processPoint k 0 1 fuel st = expandFrom 0 1 c fuel [k] w := by
        rw [processPoint]
        rw [if_neg (by rw [hvisk]; exact Bool.false_ne_true)]
        show (if 1 ≤ (findNeighbors st1.pts (getPt st1 k) 0 MAX_NEIGHBORS).length then
            expandCluster k (findNeighbors st1.pts (getPt st1 k) 0 MAX_NEIGHBORS) c 0 1 fuel stc
          else some st1) = expandFrom 0 1 c fuel [k] w
        rw [hsing]
        rw [if_pos (by simp)]
        rw [expandCluster, ← hw]
      obtain ⟨f, hf⟩ : ∃ f, fuel = f + 1 := ⟨fuel - 1, by omega⟩
      have hexp : expandFrom 0 1 c fuel [k] w = some w := by
        rw [hf]
        simp only [expandFrom]
        rw [if_pos hvw, Option.some_bind]
        rw [if_neg (by rw [hlw]; omega)]
      have hppw : processPoint k 0 1 fuel st = some w := by rw [hpp, hexp]
      rw [hppw, Option.some_bind]
      refine ih (k + 1) w (by omega) ⟨hwlen, ?_, ?_, ?_, ?_⟩
      · show w.nextClusterId = nvCount pts0 (k + 1)
        have h1 : w.nextClusterId = c := by rw [hw, nextClusterId_writeLabel]
        rw [h1, hc]
        show st1.nextClusterId + 1 = nvCount pts0 (k + 1)
        have h2 : st1.nextClusterId = st.nextClusterId := by
          rw [hst1, nextClusterId_setVisited]
        rw [h2, hnext, nvCount, horigf]
        simp
      · intro j
        rw [hw]
        have := coordsOf_getPt_eq (map_coordsOf_writeLabel stc k c) j
        rw [this]
        show coordsOf (getPt st1 j) = _
        exact hco1 j
      · intro j hj hno
        rcases Nat.lt_or_ge j k with h | h
        · have hne : k ≠ j := by omega
          obtain ⟨hv0, hl0⟩ := hlab j h hno
          constructor
          · rw [hw, visitedOf_writeLabel]
            show visitedOf st1 j = true
            rw [hst1]
            exact visitedOf_setVisited_mono st k j hv0
          · rw [hw, labelOf_writeLabel_ne stc k j c hne]
            show labelOf st1 j = _
            rw [hst1, labelOf_setVisited]
            exact hl0
        · have hjk : j = k := by omega
          subst hjk
          refine ⟨hvw, ?_⟩
          rw [hlw, hc]
          have h2 : st1.nextClusterId = st.nextClusterId := by
            rw [hst1, nextClusterId_setVisited]
          rw [h2, hnext]
      · intro j hj
        have hjk : j ≠ k := by
          rcases hj with hj | hj
          · omega
          · intro he
            rw [he, horigf] at hj
            cases hj
        have hold : visitedOf st j = false ∧ labelOf st j = 0 := by
          rcases hj with hj | hj
          · exact hunv j (Or.inl (by omega))
          · exact hunv j (Or.inr hj)
        constructor
        · rw [hw, visitedOf_writeLabel]
          show visitedOf st1 j = false
          rw [hst1, visitedOf, getPt_setVisited_ne st k j (by omega)]
          exact hold.1
        · rw [hw, labelOf_writeLabel_ne stc k j c (by omega)]
          show labelOf st1 j = 0
          rw [hst1, labelOf_setVisited]
          exact hold.2

/-- Loop invariant of the sequential eps = 0, minPts = 2 run over points
with pairwise distinct coordinates: no label is ever written. -/

theorem phase2_loop (pts0 : List (Point α)) (hd : DistinctCoords pts0) (fuel : Nat) :
    ∀ (m k : Nat) (st : St α), k + m = pts0.length → Phase2Inv pts0 st →
      ∃ st', dbscanLoop 0 2 fuel (idxFrom k m) st = some st' ∧ Phase2Inv pts0 st' := by
  intro m
  induction m with
  | zero => intro k st _ hinv; exact ⟨st, rfl, hinv⟩
  | succ m ih =>
    intro k st hkm hinv
    obtain ⟨hlen, hco, hlab⟩ := hinv
    have hkn : k < pts0.length := by omega
    have hguard : isOrigin (getPt st k) = isOrigin (pts0.getD k default) :=
      isOrigin_eq_of_coords (hco k)
    rw [idxFrom, dbscanLoop]
    by_cases horig : isOrigin (pts0.getD k default) = true
    · rw [if_pos (by rw [hguard]; exact horig)]
      exact ih (k + 1) st (by omega) ⟨hlen, hco, hlab⟩
    · have horigf : isOrigin (pts0.getD k default) = false := by simpa using horig
      rw [if_neg (by rw [hguard, horigf]; simp)]
      by_cases hvis : visitedOf st k = true
      · have hpp : processPoint k 0 2 fuel st = some st := by
          rw [processPoint, if_pos hvis]
        rw [hpp, Option.some_bind]
        exact ih (k + 1) st (by omega) ⟨hlen, hco, hlab⟩
      · have hvisk : visitedOf st k = false := by simpa using hvis
        set st1 := setVisited st k with hst1
        have hlen1 : st1.pts.length = pts0.length := by
          rw [hst1, pts_length_setVisited, hlen]
        have hco1 : ∀ j, coordsOf (getPt st1 j) = coordsOf (pts0.getD j default) := by
          intro j
          rw [← hco j, hst1]
          exact coordsOf_getPt_eq (map_coordsOf_setVisited st k) j
        have hd1 : DistinctCoords st1.pts :=
          distinctCoords_of_pointwise (by rw [hlen1]) (fun j _ => hco1 j) hd
        have hsing : findNeighbors st1.pts (getPt st1 k) 0 MAX_NEIGHBORS = [k] := by
          refine findNeighbors_eq_singleton st1.pts k (by omega) ?_ hd1 _ rfl
          show isOrigin (getPt st1 k) = false
          rw [isOrigin_eq_of_coords (hco1 k)]
          exact horigf
        have hpp : processPoint k 0 2 fuel st = some st1 := by
          rw [processPoint]
          rw [if_neg (by rw [hvisk]; exact Bool.false_ne_true)]
          show (if 2 ≤ (findNeighbors st1.pts (getPt st1 k) 0 MAX_NEIGHBORS).length then
              expandCluster k (findNeighbors st1.pts (getPt st1 k) 0 MAX_NEIGHBORS)
                (st1.nextClusterId + 1) 0 2 fuel
                { st1 with nextClusterId := st1.nextClusterId + 1 }
            else some st1) = some st1
          rw [hsing]
          rw [if_neg (by simp)]
        rw [hpp, Option.some_bind]
        refine ih (k + 1) st1 (by omega) ⟨hlen1, hco1, ?_⟩
        intro j
        rw [hst1, labelOf_setVisited]
        exact hlab j

/-- Sequential run with epsilon = 0, minPts = 1 on pairwise-distinct
input: every non-origin point ends in its own singleton cluster (a
positive id shared with no other point), while a point at the origin is
skipped as "uninitialized" and keeps label 0. -/

theorem dbscan_eps0_minPts1 (input : List (α × α))
    (hd : input.Pairwise (fun a b => a ≠ b)) :
    ∃ st', dbscan 0 1 (initSt input) = some st' ∧
      ∀ i, i < (loadPoints input).length →
        (isOrigin ((loadPoints input).getD i default) = true → labelOf st' i = 0) ∧
        (isOrigin ((loadPoints input).getD i default) = false →
          1 ≤ labelOf st' i ∧
          ∀ j, j < (loadPoints input).length → j ≠ i →
            labelOf st' j ≠ labelOf st' i) := by
  have hdc := loadPoints_distinct hd
  have h00 : (0 : α) * 0 = 0 := by norm_num
  have hfuel : 1 ≤ dbscanFuel (initSt input) := by
    rw [dbscanFuel]
    have := Nat.mul_pos (n := (initSt input).pts.length + 1)
      (m := (initSt input).pts.length + 2) (by omega) (by omega)
    omega
  obtain ⟨st', hrun, hinv⟩ := phase1_loop (loadPoints input) hdc
    (dbscanFuel (initSt input)) hfuel (loadPoints input).length 0 (initSt input)
    (by omega)
    ⟨rfl, rfl, fun j => rfl, fun j hj _ => absurd hj (by omega),
      fun j _ => ⟨loadPoints_visited input j, loadPoints_label input j⟩⟩
  obtain ⟨hlen', hnext', hco', hlab', hunv'⟩ := hinv
  refine ⟨st', ?_, ?_⟩
  · rw [dbscan, h00]
    exact hrun
  · intro i hi
    constructor
    · intro horig
      exact (hunv' i (Or.inr horig)).2
    · intro hno
      obtain ⟨-, hli⟩ := hlab' i hi hno
      refine ⟨by omega, ?_⟩
      intro j hj hji
      by_cases horj : isOrigin ((loadPoints input).getD j default) = true
      · rw [(hunv' j (Or.inr horj)).2, hli]
        omega
      · have hnoj : isOrigin ((loadPoints input).getD j default) = false := by
          simpa using horj
        obtain ⟨-, hlj⟩ := hlab' j hj hnoj
        rw [hli, hlj]
        rcases Nat.lt_or_ge j i with h | h
        · have := nvCount_strict (loadPoints input) h hnoj
          omega
        · have hij : i < j := by omega
          have := nvCount_strict (loadPoints input) hij hno
          omega

/-- Sequential run with epsilon = 0, minPts = 2 on pairwise-distinct
input: every point ends as noise (label 0). -/

theorem dbscan_eps0_minPts2 (input : List (α × α))
    (hd : input.Pairwise (fun a b => a ≠ b)) :
    ∃ st', dbscan 0 2 (initSt input) = some st' ∧ ∀ i, labelOf st' i = 0 := by
  have hdc := loadPoints_distinct hd
  have h00 : (0 : α) * 0 = 0 := by norm_num
  obtain ⟨st', hrun, hinv⟩ := phase2_loop (loadPoints input) hdc
    (dbscanFuel (initSt input)) (loadPoints input).length 0 (initSt input)
    (by omega) ⟨rfl, fun j => rfl, loadPoints_label input⟩
  refine ⟨st', ?_, hinv.2.2⟩
  rw [dbscan, h00]
  exact hrun

theorem hits_iff (p q : Point α) (eps : α) :
    hits p eps q = true ↔ (isOrigin q = false ∧ squaredDistance p q ≤ eps) := by
  rw [hits]
  constructor
  · intro h
    have h1 := (Bool.and_eq_true _ _).mp h
    exact ⟨by simpa using h1.1, by simpa using h1.2⟩
  · rintro ⟨h1, h2⟩
    simp [h1, h2]

/-!
Section: Claim theorems
-/

/-- C1 counterexample: the label claim of project.cpp lines 80-83 is a
separate read and a separate write, not a CAS. Under the interleaving in
which both workers (claiming cluster ids 1 and 2) read the label before
either writes, both claims succeed — two cluster ids win the same point —
and the second write overwrites the first, so the claim of the spec
("exactly one wins") is false for the code. -/

theorem C1_counterexample :
    (claimRun 1 2 racySchedule claimInit).wrote1 = true ∧
    (claimRun 1 2 racySchedule claimInit).wrote2 = true ∧
    (claimRun 1 2 racySchedule claimInit).label = 2 ∧
    (claimRun 1 2 racySchedule claimInit).writes = [(0, 1), (1, 2)] := by
  refine ⟨rfl, rfl, rfl, rfl⟩

/-- C1 (amended): the claim of a point for a cluster id is performed as a
separate atomic read (`p.clusterId == 0`) followed by a separate atomic
write (`p.clusterId = clusterId`), not as one compare-and-swap; for any
two cluster ids, under the interleaving where both workers read before
either writes, both claims succeed, the label is written twice
(`0 → c1` then `c1 → c2`), and the last writer wins. -/

theorem C1_theorem (c1 c2 : Nat) :
    (claimRun c1 c2 racySchedule claimInit).wrote1 = true ∧
    (claimRun c1 c2 racySchedule claimInit).wrote2 = true ∧
    (claimRun c1 c2 racySchedule claimInit).label = c2 ∧
    (claimRun c1 c2 racySchedule claimInit).writes = [(0, c1), (c1, c2)] := by
  refine ⟨rfl, rfl, rfl, rfl⟩

/-- C2 counterexample: under the racy interleaving of the check-then-act
border absorption, the shared label undergoes the write `(1, 2)`: a point
already holding Cluster(1) is relabeled to Cluster(2), so the claimed
monotonicity ("once Cluster(id), never a different id") fails for
concurrent executions of the code. -/

theorem C2_counterexample :
    ((1, 2) : Nat × Nat) ∈ (claimRun 1 2 racySchedule claimInit).writes := by
  decide

/-- C2 (amended): in the sequential (serialized) executions of the run,
label transitions are monotonic: every label write recorded in the ghost
log takes a point from label 0 (Unlabeled/Noise) to a positive cluster id,
so a point in Cluster(id) never changes id and never reverts; only
concurrent interleavings of the separate read and write in expandCluster
can break this (see the counterexample). -/

theorem C2_theorem (input : List (α × α)) (epsilon : α) (minPts : Nat)
    (e : Nat × Nat × Nat) (he : e ∈ runLog input epsilon minPts) :
    e.2.1 = 0 ∧ 1 ≤ e.2.2 :=
  runLog_good input epsilon minPts e he

theorem C2_witness :
    ((0, 0, 1) : Nat × Nat × Nat) ∈ runLog [((1 : ℤ), (0 : ℤ)), (1, 1)] 1 1 ∧
      ((0, 0, 1) : Nat × Nat × Nat).2.1 = 0 ∧
      1 ≤ ((0, 0, 1) : Nat × Nat × Nat).2.2 :=
  ⟨by decide, C2_theorem [((1 : ℤ), (0 : ℤ)), (1, 1)] 1 1 (0, 0, 1) (by decide)⟩

/-- C3 counterexample: a range query over three coincident points with
capacity 2: the true result set has 3 indices, yet `findNeighbors`
returns the truncated `[0, 1]` — no error value exists in its type and
nothing is surfaced, contradicting the claim that exceeding the cap is
reported rather than silently truncated. -/

theorem C3_counterexample :
    (fullScan ([{ x := 1, y := 1 }, { x := 1, y := 1 }, { x := 1, y := 1 }] :
          List (Point ℤ))
        { x := 1, y := 1 } 0).length = 3 ∧
    findNeighbors ([{ x := 1, y := 1 }, { x := 1, y := 1 }, { x := 1, y := 1 }] :
          List (Point ℤ))
        { x := 1, y := 1 } 0 2 = [0, 1] := by
  refine ⟨by decide, by decide⟩

/-- C3 (amended): `findNeighbors` silently truncates: its result is
exactly the first `maxNeighbors` entries of the uncapped scan, and no
CapacityExceeded (or any other) error is ever surfaced — the function's
only output is the neighbor buffer prefix. -/

theorem C3_theorem (pts : List (Point α)) (p : Point α) (epsilonSquared : α)
    (maxNeighbors : Nat) :
    findNeighbors pts p epsilonSquared maxNeighbors =
      (fullScan pts p epsilonSquared).take maxNeighbors :=
  findNeighbors_eq_take pts p epsilonSquared maxNeighbors

/-- C4 counterexample: `dbscan(0, 0)` — epsilon ≤ 0 and minPts < 1, both
invalid per the spec — is not rejected: the run completes, the point is
visited and even assigned cluster id 1, so clustering does run and point
state is modified. -/

theorem C4_counterexample :
    (dbscan 0 0 (initSt [((1 : ℤ), (1 : ℤ))])).map
        (fun st => (visitedOf st 0, labelOf st 0)) =
      some (true, 1) := by
  decide

/-- C4 (amended): `dbscan` performs no configuration validation at all:
for every epsilon (including epsilon ≤ 0) and every minPts (including
minPts < 1) and every initial state, clustering proceeds and runs to
completion; no ConfigError exists anywhere in the code. -/

theorem C4_theorem (epsilon : α) (minPts : Nat) (st : St α) :
    (dbscan epsilon minPts st).isSome = true := by
  obtain ⟨st', h⟩ := dbscan_isSome epsilon minPts st
  rw [h]
  rfl

/-- C5 counterexample: the point set holding the single legitimate point
(0, 0): querying around that very point returns the empty list even
though its squared distance to itself (0) is within epsilonSquared = 1 —
the origin point is skipped as an "uninitialized slot", so self-inclusion
fails and a valid point is omitted. -/

theorem C5_counterexample :
    findNeighbors [({ x := 0, y := 0 } : Point ℤ)] { x := 0, y := 0 } 1 MAX_NEIGHBORS
        = [] ∧
    squaredDistance ({ x := 0, y := 0 } : Point ℤ) { x := 0, y := 0 } ≤ 1 := by
  refine ⟨by decide, by decide⟩

/-- C5 (amended): when the capacity bound does not bite
(`pts.length ≤ maxNeighbors`), `findNeighbors` returns exactly the
indices of the NON-ORIGIN points within `epsilonSquared` of the query
point; a point with coordinates (0, 0) is always omitted (and hence
self-inclusion holds only for non-origin query points). -/

theorem C5_theorem (pts : List (Point α)) (p : Point α) (epsilonSquared : α)
    (maxNeighbors : Nat) (hcap : pts.length ≤ maxNeighbors) (j : Nat) :
    j ∈ findNeighbors pts p epsilonSquared maxNeighbors ↔
      j < pts.length ∧ isOrigin (pts.getD j default) = false ∧
        squaredDistance p (pts.getD j default) ≤ epsilonSquared := by
  rw [mem_findNeighbors_uncapped pts p epsilonSquared maxNeighbors hcap j]
  rw [and_congr_right_iff]
  intro _
  exact hits_iff p _ epsilonSquared

theorem C5_witness :
    (([{ x := 1, y := 0 }, { x := 2, y := 0 }] : List (Point ℤ)).length ≤ 5) ∧
    (0 ∈ findNeighbors ([{ x := 1, y := 0 }, { x := 2, y := 0 }] : List (Point ℤ))
        { x := 1, y := 0 } 1 5 ↔
      0 < ([{ x := 1, y := 0 }, { x := 2, y := 0 }] : List (Point ℤ)).length ∧
      isOrigin (([{ x := 1, y := 0 }, { x := 2, y := 0 }] : List (Point ℤ)).getD 0 default)
          = false ∧
      squaredDistance ({ x := 1, y := 0 } : Point ℤ)
          (([{ x := 1, y := 0 }, { x := 2, y := 0 }] : List (Point ℤ)).getD 0 default)
        ≤ 1) :=
  ⟨by decide, C5_theorem ([{ x := 1, y := 0 }, { x := 2, y := 0 }] : List (Point ℤ))
    { x := 1, y := 0 } 1 5 (by decide) 0⟩

/-- C6 counterexample: the input [(0,0), (1,1)] loads two valid input
points (both are legitimate finite coordinate pairs), yet the output
sequence of the run holds only one triple: the output loop of project.cpp
line 170 skips the loaded point (0, 0) as an "uninitialized slot", so the
output does NOT contain exactly one triple per valid input point and is
not in bijection with the valid input. -/
theorem C6_counterexample :
    ([((0 : ℤ), (0 : ℤ)), (1, 1)] : List (ℤ × ℤ)).length = 2 ∧
    (mainOutput [((0 : ℤ), (0 : ℤ)), (1, 1)] 2 2).map (fun out => out.length) =
      some 1 := by
  refine ⟨rfl, by decide⟩

/-- C6 (amended): for every nonempty input, the run produces an output
sequence with exactly one `(x, y, clusterLabel)` triple per NON-ORIGIN
loaded input point, preserving input order — projecting the triples to
their coordinates yields precisely the non-origin loaded input points in
order; a legitimate input point with coordinates (0, 0) is silently
dropped from the output (labels are naturals, 0 = noise, positive =
cluster membership). -/
theorem C6_theorem (input : List (α × α)) (hne : input ≠ []) (epsilon : α)
    (minPts : Nat) :
    (mainOutput input epsilon minPts).map (fun out => out.map (fun t => (t.1, t.2.1))) =
      some ((input.take MAX_POINTS).filter (fun c => !(originC c))) := by
  obtain ⟨out, h1, h2⟩ := mainOutput_spec input hne epsilon minPts
  rw [h1]
  show some (out.map (fun t => (t.1, t.2.1))) = _
  rw [h2]

theorem C6_witness :
    ([((0 : ℤ), (0 : ℤ)), (1, 1)] ≠ ([] : List (ℤ × ℤ))) ∧
    (mainOutput [((0 : ℤ), (0 : ℤ)), (1, 1)] 2 2).map
        (fun out => out.map (fun t => (t.1, t.2.1))) =
      some (([((0 : ℤ), (0 : ℤ)), (1, 1)].take MAX_POINTS).filter
        (fun c => !(originC c))) :=
  ⟨by decide, C6_theorem [((0 : ℤ), (0 : ℤ)), (1, 1)] (by decide) 2 2⟩

/-- C7 counterexample: with 17 initialized points, the spawn loop of
`dbscan` creates 17 `std::thread` objects — more than the semaphore bound
of 16 (`THREAD_LIMIT`) — so worker creation is not bounded by a fixed
pool size. -/

theorem C7_counterexample :
    threadsCreated (List.replicate 17 ({ x := 1, y := 1 } : Point ℤ)) = 17 ∧
      THREAD_LIMIT < 17 := by
  refine ⟨by decide, by norm_num [THREAD_LIMIT]⟩

/-- C7 (amended): `dbscan` spawns one thread per initialized point, so the
number of worker threads created equals the number of initialized points
and grows without bound with the input; only concurrent execution is
gated (by the counting semaphore of 16), exactly the "spawn N threads,
semaphore-gate execution" pattern the spec rules out. -/

theorem C7_theorem (n : Nat) :
    threadsCreated (List.replicate n ({ x := 1, y := 1 } : Point α)) = n := by
  have hno : (!(isOrigin ({ x := 1, y := 1 } : Point α))) = true := by
    simp [isOrigin]
  induction n with
  | zero => rfl
  | succ n ih =>
    rw [threadsCreated, List.replicate_succ, List.filter_cons]
    simp only [hno, if_true, List.length_cons]
    have h2 := ih
    rw [threadsCreated] at h2
    omega

/-- C8 counterexample: the input {(0,0), (1,1)} with epsilon = 0,
minPts = 1. Both points are distinct, yet the run leaves the point (0,0)
with label 0 (noise) — it is skipped as an "uninitialized slot" and never
receives a singleton cluster id, contradicting "every distinct point
becomes its own singleton cluster". -/

theorem C8_counterexample :
    (dbscan 0 1 (initSt [((0 : ℤ), (0 : ℤ)), (1, 1)])).map
        (fun st => (labelOf st 0, labelOf st 1)) = some (0, 1) := by
  decide

/-- C8 (amended): for pairwise-distinct input, with epsilon = 0 and
minPts = 1 every NON-ORIGIN point receives its own positive cluster id
shared with no other point, while a point at (0,0) is skipped and stays
labeled 0 (noise); with epsilon = 0 and minPts = 2 every point ends as
noise (label 0). -/

theorem C8_theorem (input : List (α × α))
    (hd : input.Pairwise (fun a b => a ≠ b)) :
    (∃ st', dbscan 0 1 (initSt input) = some st' ∧
      ∀ i, i < (loadPoints input).length →
        (isOrigin ((loadPoints input).getD i default) = true → labelOf st' i = 0) ∧
        (isOrigin ((loadPoints input).getD i default) = false →
          1 ≤ labelOf st' i ∧
          ∀ j, j < (loadPoints input).length → j ≠ i →
            labelOf st' j ≠ labelOf st' i)) ∧
    (∃ st2, dbscan 0 2 (initSt input) = some st2 ∧ ∀ i, labelOf st2 i = 0) :=
  ⟨dbscan_eps0_minPts1 input hd, dbscan_eps0_minPts2 input hd⟩

theorem C8_witness :
    ([((0 : ℤ), (0 : ℤ)), (1, 1)].Pairwise (fun a b => a ≠ b)) ∧
    ((∃ st', dbscan 0 1 (initSt [((0 : ℤ), (0 : ℤ)), (1, 1)]) = some st' ∧
      ∀ i, i < (loadPoints [((0 : ℤ), (0 : ℤ)), (1, 1)]).length →
        (isOrigin ((loadPoints [((0 : ℤ), (0 : ℤ)), (1, 1)]).getD i default) = true →
          labelOf st' i = 0) ∧
        (isOrigin ((loadPoints [((0 : ℤ), (0 : ℤ)), (1, 1)]).getD i default) = false →
          1 ≤ labelOf st' i ∧
          ∀ j, j < (loadPoints [((0 : ℤ), (0 : ℤ)), (1, 1)]).length → j ≠ i →
            labelOf st' j ≠ labelOf st' i)) ∧
    (∃ st2, dbscan 0 2 (initSt [((0 : ℤ), (0 : ℤ)), (1, 1)]) = some st2 ∧
      ∀ i, labelOf st2 i = 0)) :=
  ⟨by decide, C8_theorem [((0 : ℤ), (0 : ℤ)), (1, 1)] (by decide)⟩

/-- C9: the recursive cluster expansion terminates for every input:
because each recursive call is guarded by the false-to-true flip of the
callee's `visited` flag, a fuel budget of
`|neighbors| + 1 + (#unvisited points) * (#points + 1)` — finite, and
bounded by the number of points — is never exhausted, and the `visited`
flags are never reset (they only ever go from false to true). -/

theorem C9_theorem (epsilonSquared : α) (minPts clusterId fuel : Nat)
    (ns : List Nat) (st : St α)
    (hidx : ∀ j ∈ ns, j < st.pts.length)
    (hfuel : ns.length + 1 + unvisitedCount st * (st.pts.length + 1) ≤ fuel) :
    ∃ st', expandFrom epsilonSquared minPts clusterId fuel ns st = some st' ∧
      ∀ i, visitedOf st i = true → visitedOf st' i = true := by
  obtain ⟨st', h⟩ := expandFrom_isSome epsilonSquared minPts clusterId fuel ns st
    hidx hfuel
  exact ⟨st', h,
    (expandFrom_evolves epsilonSquared minPts clusterId fuel ns st st' h).2.2.1⟩

theorem C9_witness :
    ((∀ j ∈ [0], j < (initSt [((1 : ℤ), (1 : ℤ))]).pts.length) ∧
      [0].length + 1 + unvisitedCount (initSt [((1 : ℤ), (1 : ℤ))]) *
        ((initSt [((1 : ℤ), (1 : ℤ))]).pts.length + 1) ≤ 4) ∧
    (∃ st', expandFrom 0 1 1 4 [0] (initSt [((1 : ℤ), (1 : ℤ))]) = some st' ∧
      ∀ i, visitedOf (initSt [((1 : ℤ), (1 : ℤ))]) i = true →
        visitedOf st' i = true) :=
  ⟨⟨by decide, by decide⟩,
    C9_theorem 0 1 1 4 [0] (initSt [((1 : ℤ), (1 : ℤ))]) (by decide) (by decide)⟩

/-- C10: the neighbor search stores at most `maxNeighbors` entries (the
returned buffer prefix has length between 0 and `maxNeighbors`), and
every stored entry is a valid index into the point array — no
out-of-bounds write of the neighbor buffer can occur. -/

theorem C10_theorem (pts : List (Point α)) (p : Point α) (epsilonSquared : α)
    (maxNeighbors : Nat) :
    (findNeighbors pts p epsilonSquared maxNeighbors).length ≤ maxNeighbors ∧
    ∀ j ∈ findNeighbors pts p epsilonSquared maxNeighbors, j < pts.length :=
  ⟨findNeighbors_length_le pts p epsilonSquared maxNeighbors,
    fun _ hj => mem_findNeighbors_lt pts p epsilonSquared maxNeighbors hj⟩

end DBSCAN
